import Mathlib

/-!
Shallow embedding of `src/dynamic_honey_badger/votes.rs` (the `VoteCounter`
component of the dynamic honey badger reconfiguration subsystem).

Modelling choices:
* `BTreeMap<K, V>` is embedded as a key-sorted association list
  `List (K × V)`; `get` is `findKV`, `insert` is the order-preserving
  `insertKV`, and `values()` is `List.map Prod.snd` (key iteration order).
* Machine integers `u64`/`usize` (`era`, `num`, `num_faulty`) are embedded as
  `Nat`; the code only compares them and increments `num`, so overflow never
  matters for the claims.
* The external crypto and serialization collaborators (`bincode::serialize`,
  `SecretKey::sign`, `PublicKey::verify`, `NetworkInfo`) are opaque to this
  module and are embedded as function-valued records; `bincode` failure is an
  `Option` returning `none`.
* `&mut self` methods returning `Result<T>` are embedded in state-passing
  style as functions `VoteCounter → args → VoteCounter × Except ErrorKind T`,
  so that an early `return Err(..)` leaves exactly the state reached at that
  program point, faithfully reproducing the in-place mutation order.
-/

namespace HbbftVotes

/-- Modelled from the spec: an opaque signature value (`crypto::Signature`),
equality-comparable; the missing crypto crate is outside `src/`. -/
abbrev Signature := Nat

/-- Modelled from the spec: a serialized byte string produced by the
deterministic encoder. -/
abbrev Bytes := List Nat

/-- Modelled from the spec: a node's public verification key, used only
through `pk.verify(sig, bytes)`. -/
structure PublicKey where
  verify : Signature → Bytes → Bool

/-- Modelled from the spec: the local node's secret key, used only through
`sk.sign(bytes)`. -/
structure SecretKey where
  sign : Bytes → Signature

/-- Modelled from the spec: the shared read-only network/crypto context
(`messaging::NetworkInfo`), exposing exactly the accessors this module
calls: `our_uid()`, `num_faulty()`, `public_key(id)`, `secret_key()`. -/
structure NetworkInfo (α : Type) where
  ourUid : α
  numFaulty : Nat
  publicKey : α → Option PublicKey
  secretKey : SecretKey

/-- Modelled from the spec: a proposed validator-set mutation
(`super::Change`): `Add(NodeId, <public-key-material>)` or `Remove(NodeId)`;
opaque, equality-comparable tally key. -/
inductive Change (α : Type) where
  | Add : α → Bytes → Change α
  | Remove : α → Change α
deriving DecidableEq

/-- A vote for removing or adding a validator (struct `Vote` in the source). -/
structure Vote (α : Type) where
  /-- The change this vote is for. -/
  change : Change α
  /-- The epoch in which the current era began. -/
  era : Nat
  /-- The vote number: a vote can be changed by casting another vote with a
  higher number. -/
  num : Nat
deriving DecidableEq

/-- A signed vote for removing or adding a validator (struct `SignedVote`). -/
structure SignedVote (α : Type) where
  vote : Vote α
  voter : α
  sig : Signature
deriving DecidableEq

/-- Modelled from the spec: the two fault kinds this module reports
(`fault_log::FaultKind` variants used by `votes.rs`). -/
inductive FaultKind where
  | InvalidVoteSignature
  | InvalidCommittedVote
deriving DecidableEq

/-- Modelled from the spec: a single fault record `(node_id, kind)`. -/
structure Fault (α : Type) where
  nodeId : α
  kind : FaultKind
deriving DecidableEq

/-- Modelled from the spec: an ordered list of fault records
(`fault_log::FaultLog`). -/
abbrev FaultLog (α : Type) := List (Fault α)

/-- `FaultLog::new()`: the empty fault log. -/
def FaultLog.new {α : Type} : FaultLog α := []

/-- `FaultLog::init(node_id, kind)`: a one-entry fault log. -/
def FaultLog.init {α : Type} (nodeId : α) (kind : FaultKind) : FaultLog α :=
  [⟨nodeId, kind⟩]

/-- Modelled from the spec: the hard-error kinds of this module
(`ErrorKind::SignVoteForBincode`, `ErrorKind::ValidateBincode`). -/
inductive ErrorKind where
  | SignVoteForBincode
  | ValidateBincode
deriving DecidableEq

/-- Modelled from the spec: the deterministic serializer
(`bincode::serialize`); `none` models a serialization failure. -/
structure Bincode (α : Type) where
  serialize : Vote α → Option Bytes

deriving instance DecidableEq for Except

/-- `BTreeMap::get`: first association for a key in the list. -/
def findKV {α β : Type} [DecidableEq α] (k : α) : List (α × β) → Option β
  | [] => none
  | (k', v) :: rest => if k = k' then some v else findKV k rest

/-- `BTreeMap::insert`: order-preserving insert-or-replace by key. -/
def insertKV {α β : Type} [LinearOrder α] (k : α) (v : β) :
    List (α × β) → List (α × β)
  | [] => [(k, v)]
  | (k', v') :: rest =>
    if k < k' then (k, v) :: (k', v') :: rest
    else if k = k' then (k, v) :: rest
    else (k', v') :: insertKV k v rest

/-- Rust's `Option::map_or(default, f)`. -/
def mapOr {β γ : Type} (o : Option β) (d : γ) (f : β → γ) : γ :=
  match o with
  | none => d
  | some b => f b

/-- A buffer and counter collecting pending and committed votes for validator
set changes (struct `VoteCounter` in the source). -/
structure VoteCounter (α : Type) where
  /-- Shared network data. -/
  netinfo : NetworkInfo α
  /-- The epoch when voting was reset. -/
  era : Nat
  /-- Pending node transactions that we will propose in the next epoch. -/
  pending : List (α × SignedVote α)
  /-- Collected votes for adding or removing nodes. Each node has one vote,
  and casting another vote revokes the previous one. -/
  committed : List (α × Vote α)

variable {α : Type}

/-- `VoteCounter::new`: empty buffer and counter bound to `era`. -/
def VoteCounter.new (netinfo : NetworkInfo α) (era : Nat) : VoteCounter α :=
  { netinfo, era, pending := [], committed := [] }

/-- `VoteCounter::validate`: re-serializes the unsigned vote and verifies the
signature against the claimed voter's public key; a voter with no known
public key fails validation. Reads only `self.netinfo`. -/
def validate (bc : Bincode α) (netinfo : NetworkInfo α)
    (signed_vote : SignedVote α) : Except ErrorKind Bool :=
  match bc.serialize signed_vote.vote with
  | none => .error .ValidateBincode
  | some ser_vote =>
    .ok (mapOr (netinfo.publicKey signed_vote.voter) false
      (fun pk => pk.verify signed_vote.sig ser_vote))

/-- `VoteCounter::sign_vote_for`: creates a signed vote for the given change
and inserts it into the pending votes buffer, keyed by the local node id. -/
def sign_vote_for [LinearOrder α] (bc : Bincode α) (c : VoteCounter α)
    (change : Change α) : VoteCounter α × Except ErrorKind (SignedVote α) :=
  let voter := c.netinfo.ourUid
  let vote : Vote α :=
    { change, era := c.era,
      num := mapOr (findKV voter c.pending) 0 (fun sv => sv.vote.num + 1) }
  match bc.serialize vote with
  | none => (c, .error .SignVoteForBincode)
  | some ser_vote =>
    let signed_vote : SignedVote α :=
      { vote, voter, sig := c.netinfo.secretKey.sign ser_vote }
    ({ c with pending := insertKV voter signed_vote c.pending },
     .ok signed_vote)

/-- `VoteCounter::add_pending_vote`: inserts a pending vote into the buffer,
if it has a higher number than the existing one. -/
def add_pending_vote [LinearOrder α] (bc : Bincode α) (c : VoteCounter α)
    (sender_id : α) (signed_vote : SignedVote α) :
    VoteCounter α × Except ErrorKind (FaultLog α) :=
  if (signed_vote.vote.era != c.era) ||
      mapOr (findKV signed_vote.voter c.pending) false
        (fun sv => decide (signed_vote.vote.num ≤ sv.vote.num)) then
    (c, .ok FaultLog.new)
  else
    match validate bc c.netinfo signed_vote with
    | .error e => (c, .error e)
    | .ok false =>
      (c, .ok (FaultLog.init sender_id FaultKind.InvalidVoteSignature))
    | .ok true =>
      ({ c with pending := insertKV signed_vote.voter signed_vote c.pending },
       .ok FaultLog.new)

/-- `VoteCounter::pending_votes`: all pending votes that are newer than their
voter's committed vote, in the pending map's (voter-key) order. -/
def pending_votes [DecidableEq α] (c : VoteCounter α) : List (SignedVote α) :=
  (c.pending.map Prod.snd).filter (fun signed_vote =>
    mapOr (findKV signed_vote.voter c.committed) true
      (fun vote => decide (vote.num < signed_vote.vote.num)))

/-- `VoteCounter::add_committed_vote`: inserts a committed vote into the
counter, if it has a higher number than the existing one. -/
def add_committed_vote [LinearOrder α] (bc : Bincode α) (c : VoteCounter α)
    (proposer_id : α) (signed_vote : SignedVote α) :
    VoteCounter α × Except ErrorKind (FaultLog α) :=
  if mapOr (findKV signed_vote.voter c.committed) false
      (fun vote => decide (signed_vote.vote.num ≤ vote.num)) then
    (c, .ok FaultLog.new)
  else
    if signed_vote.vote.era != c.era then
      (c, .ok (FaultLog.init proposer_id FaultKind.InvalidCommittedVote))
    else
      match validate bc c.netinfo signed_vote with
      | .error e => (c, .error e)
      | .ok false =>
        (c, .ok (FaultLog.init proposer_id FaultKind.InvalidCommittedVote))
      | .ok true =>
        ({ c with
            committed := insertKV signed_vote.voter signed_vote.vote
              c.committed },
         .ok FaultLog.new)

/-- `VoteCounter::add_committed_votes`: applies `add_committed_vote` to each
element in order, accumulating fault logs; a `?` error aborts the loop but
keeps the mutations already applied. -/
def add_committed_votes [LinearOrder α] (bc : Bincode α) (c : VoteCounter α)
    (proposer_id : α) : List (SignedVote α) →
    VoteCounter α × Except ErrorKind (FaultLog α)
  | [] => (c, .ok FaultLog.new)
  | signed_vote :: rest =>
    match add_committed_vote bc c proposer_id signed_vote with
    | (c', .ok fl) =>
      match add_committed_votes bc c' proposer_id rest with
      | (c'', .ok fl') => (c'', .ok (fl ++ fl'))
      | (c'', .error e) => (c'', .error e)
    | (c', .error e) => (c', .error e)

/-- `VoteCounter::compute_winner`'s tally loop: walks the committed votes in
map order keeping a per-change count, returning the first change whose count
exceeds `f`. -/
def compute_winner_go [DecidableEq α] (f : Nat) :
    List (Vote α) → (Change α → Nat) → Option (Change α)
  | [], _ => none
  | vote :: rest, vote_counts =>
    let n := vote_counts vote.change + 1
    if f < n then some vote.change
    else compute_winner_go f rest
      (fun ch => if ch = vote.change then n else vote_counts ch)

/-- `VoteCounter::compute_winner`: the change that has at least `f + 1`
committed votes, if any. -/
def compute_winner [DecidableEq α] (c : VoteCounter α) : Option (Change α) :=
  compute_winner_go c.netinfo.numFaulty (c.committed.map Prod.snd) (fun _ => 0)

/-! ### Association-list (`BTreeMap`) lemmas -/

theorem findKV_insertKV_self [LinearOrder α] {β : Type} (k : α) (v : β)
    (l : List (α × β)) : findKV k (insertKV k v l) = some v := by
  induction l with
  | nil => simp [insertKV, findKV]
  | cons hd tl ih =>
    obtain ⟨k', v'⟩ := hd
    by_cases h1 : k < k'
    · simp [insertKV, h1, findKV]
    · by_cases h2 : k = k'
      · simp [insertKV, h1, h2, findKV]
      · simp [insertKV, h1, h2, findKV, ih]

theorem findKV_insertKV_ne [LinearOrder α] {β : Type} {k k' : α} (v : β)
    (l : List (α × β)) (hne : k' ≠ k) :
    findKV k' (insertKV k v l) = findKV k' l := by
  induction l with
  | nil => simp [insertKV, findKV, hne]
  | cons hd tl ih =>
    obtain ⟨a, b⟩ := hd
    by_cases h1 : k < a
    · simp [insertKV, h1, findKV, hne]
    · by_cases h2 : k = a
      · subst h2
        simp [insertKV, h1, findKV, hne]
      · by_cases h3 : k' = a
        · simp [insertKV, h1, h2, findKV, h3]
        · simp [insertKV, h1, h2, findKV, h3, ih]

theorem findKV_mem [DecidableEq α] {β : Type} {k : α} {v : β}
    {l : List (α × β)} (h : findKV k l = some v) : (k, v) ∈ l := by
  induction l with
  | nil => simp [findKV] at h
  | cons hd tl ih =>
    obtain ⟨a, b⟩ := hd
    by_cases h1 : k = a
    · simp [findKV, h1] at h
      simp [h1, h]
    · simp [findKV, h1] at h
      simp [ih h]

theorem mem_insertKV [LinearOrder α] {β : Type} {k : α} {v : β}
    {x : α × β} {l : List (α × β)} (h : x ∈ insertKV k v l) :
    x = (k, v) ∨ x ∈ l := by
  induction l with
  | nil => simpa [insertKV] using h
  | cons hd tl ih =>
    obtain ⟨a, b⟩ := hd
    simp only [List.mem_cons]
    by_cases h1 : k < a
    · simp [insertKV, h1, List.mem_cons] at h
      tauto
    · by_cases h2 : k = a
      · subst h2
        simp [insertKV, h1, List.mem_cons] at h
        tauto
      · simp [insertKV, h1, h2, List.mem_cons] at h
        rcases h with h | h
        · tauto
        · rcases ih h with h' | h' <;> tauto

theorem insertKV_insertKV_self [LinearOrder α] {β : Type} (k : α) (v w : β)
    (l : List (α × β)) : insertKV k v (insertKV k w l) = insertKV k v l := by
  induction l with
  | nil => simp [insertKV]
  | cons hd tl ih =>
    obtain ⟨a, b⟩ := hd
    by_cases h1 : k < a
    · simp [insertKV, h1, lt_irrefl]
    · by_cases h2 : k = a
      · simp [insertKV, h1, h2, lt_irrefl]
      · simp [insertKV, h1, h2, ih]

theorem mem_iff_findKV [LinearOrder α] {β : Type} {k : α} {v : β}
    {l : List (α × β)} (hl : l.Pairwise (fun x y => x.1 < y.1)) :
    (k, v) ∈ l ↔ findKV k l = some v := by
  induction l with
  | nil => simp [findKV]
  | cons hd tl ih =>
    obtain ⟨a, b⟩ := hd
    rcases List.pairwise_cons.mp hl with ⟨ha, htl⟩
    by_cases h1 : k = a
    · subst h1
      simp only [findKV, if_pos rfl, List.mem_cons]
      constructor
      · rintro (h | h)
        · simp [Prod.ext_iff] at h
          simp [h]
        · exact absurd (ha _ h) (lt_irrefl k)
      · intro h
        simp at h
        simp [h]
    · simp only [findKV, if_neg h1, List.mem_cons]
      rw [← ih htl]
      constructor
      · rintro (h | h)
        · exact absurd h (by simp [Prod.ext_iff, h1])
        · exact h
      · intro h
        exact Or.inr h

/-! ### Characterizations of the mutating operations -/

/-- The exact condition under which `add_pending_vote` stores its argument:
matching era, strictly newer than any stored pending vote of the same voter,
and a successfully verified signature. -/
def pend_stores [LinearOrder α] (bc : Bincode α) (ni : NetworkInfo α)
    (era : Nat) (p : List (α × SignedVote α)) (sv : SignedVote α) : Bool :=
  !((sv.vote.era != era) ||
      mapOr (findKV sv.voter p) false
        (fun old => decide (sv.vote.num ≤ old.vote.num)))
  && decide (validate bc ni sv = .ok true)

/-- The exact condition under which `add_committed_vote` stores its argument:
strictly newer than any stored committed vote of the same voter, matching
era, and a successfully verified signature. -/
def comm_stores [LinearOrder α] (bc : Bincode α) (ni : NetworkInfo α)
    (era : Nat) (cm : List (α × Vote α)) (sv : SignedVote α) : Bool :=
  !(mapOr (findKV sv.voter cm) false
      (fun old => decide (sv.vote.num ≤ old.num)))
  && !(sv.vote.era != era)
  && decide (validate bc ni sv = .ok true)

theorem apv_fst [LinearOrder α] (bc : Bincode α) (c : VoteCounter α)
    (sender_id : α) (sv : SignedVote α) :
    (add_pending_vote bc c sender_id sv).1 =
      if pend_stores bc c.netinfo c.era c.pending sv then
        { c with pending := insertKV sv.voter sv c.pending }
      else c := by
  unfold add_pending_vote pend_stores
  by_cases hobs : ((sv.vote.era != c.era) ||
      mapOr (findKV sv.voter c.pending) false
        (fun old => decide (sv.vote.num ≤ old.vote.num))) = true
  · simp [hobs]
  · rcases hv : validate bc c.netinfo sv with e | b
    · simp [hobs, hv]
    · cases b <;> simp [hobs, hv]

theorem acv_fst [LinearOrder α] (bc : Bincode α) (c : VoteCounter α)
    (proposer_id : α) (sv : SignedVote α) :
    (add_committed_vote bc c proposer_id sv).1 =
      if comm_stores bc c.netinfo c.era c.committed sv then
        { c with committed := insertKV sv.voter sv.vote c.committed }
      else c := by
  unfold add_committed_vote comm_stores
  by_cases hobs : (mapOr (findKV sv.voter c.committed) false
      (fun old => decide (sv.vote.num ≤ old.num))) = true
  · simp [hobs]
  · by_cases hera : (sv.vote.era != c.era) = true
    · simp [hobs, hera]
    · rcases hv : validate bc c.netinfo sv with e | b
      · simp [hobs, hera, hv]
      · cases b <;> simp [hobs, hera, hv]

theorem pend_stores_true_iff [LinearOrder α] (bc : Bincode α)
    (ni : NetworkInfo α) (era : Nat) (p : List (α × SignedVote α))
    (sv : SignedVote α) :
    pend_stores bc ni era p sv = true ↔
      sv.vote.era = era
      ∧ (∀ old, findKV sv.voter p = some old →
          old.vote.num < sv.vote.num)
      ∧ validate bc ni sv = .ok true := by
  unfold pend_stores
  rcases h : findKV sv.voter p with _ | old <;>
    simp [h, mapOr, bne, Nat.lt_iff_add_one_le, Nat.not_le, and_comm,
      Nat.not_lt]
  tauto

theorem comm_stores_true_iff [LinearOrder α] (bc : Bincode α)
    (ni : NetworkInfo α) (era : Nat) (cm : List (α × Vote α))
    (sv : SignedVote α) :
    comm_stores bc ni era cm sv = true ↔
      sv.vote.era = era
      ∧ (∀ old, findKV sv.voter cm = some old →
          old.num < sv.vote.num)
      ∧ validate bc ni sv = .ok true := by
  unfold comm_stores
  rcases h : findKV sv.voter cm with _ | old <;>
    simp [h, mapOr, bne, Nat.not_le, Nat.not_lt]
  tauto

theorem apv_committed [LinearOrder α] (bc : Bincode α) (c : VoteCounter α)
    (sender_id : α) (sv : SignedVote α) :
    (add_pending_vote bc c sender_id sv).1.committed = c.committed := by
  rw [apv_fst]
  split <;> rfl

theorem apv_era [LinearOrder α] (bc : Bincode α) (c : VoteCounter α)
    (sender_id : α) (sv : SignedVote α) :
    (add_pending_vote bc c sender_id sv).1.era = c.era := by
  rw [apv_fst]
  split <;> rfl

theorem apv_netinfo [LinearOrder α] (bc : Bincode α) (c : VoteCounter α)
    (sender_id : α) (sv : SignedVote α) :
    (add_pending_vote bc c sender_id sv).1.netinfo = c.netinfo := by
  rw [apv_fst]
  split <;> rfl

theorem acv_pending [LinearOrder α] (bc : Bincode α) (c : VoteCounter α)
    (proposer_id : α) (sv : SignedVote α) :
    (add_committed_vote bc c proposer_id sv).1.pending = c.pending := by
  rw [acv_fst]
  split <;> rfl

theorem acv_era [LinearOrder α] (bc : Bincode α) (c : VoteCounter α)
    (proposer_id : α) (sv : SignedVote α) :
    (add_committed_vote bc c proposer_id sv).1.era = c.era := by
  rw [acv_fst]
  split <;> rfl

theorem acv_netinfo [LinearOrder α] (bc : Bincode α) (c : VoteCounter α)
    (proposer_id : α) (sv : SignedVote α) :
    (add_committed_vote bc c proposer_id sv).1.netinfo = c.netinfo := by
  rw [acv_fst]
  split <;> rfl

theorem svf_committed [LinearOrder α] (bc : Bincode α) (c : VoteCounter α)
    (change : Change α) :
    (sign_vote_for bc c change).1.committed = c.committed := by
  simp only [sign_vote_for]
  split <;> rfl

theorem svf_era [LinearOrder α] (bc : Bincode α) (c : VoteCounter α)
    (change : Change α) : (sign_vote_for bc c change).1.era = c.era := by
  simp only [sign_vote_for]
  split <;> rfl

theorem svf_netinfo [LinearOrder α] (bc : Bincode α) (c : VoteCounter α)
    (change : Change α) :
    (sign_vote_for bc c change).1.netinfo = c.netinfo := by
  simp only [sign_vote_for]
  split <;> rfl

theorem acvs_pending [LinearOrder α] (bc : Bincode α) (c : VoteCounter α)
    (proposer_id : α) (svs : List (SignedVote α)) :
    (add_committed_votes bc c proposer_id svs).1.pending = c.pending := by
  induction svs generalizing c with
  | nil => rfl
  | cons sv rest ih =>
    unfold add_committed_votes
    rcases h : add_committed_vote bc c proposer_id sv with ⟨c', r⟩
    have hc' : c'.pending = c.pending := by
      have := acv_pending bc c proposer_id sv
      rw [h] at this
      exact this
    rcases r with e | fl
    · simpa using hc'
    · rcases h2 : add_committed_votes bc c' proposer_id rest with ⟨c'', r2⟩
      have hc'' : c''.pending = c'.pending := by
        have := ih c'
        rw [h2] at this
        exact this
      rcases r2 with e2 | fl2 <;> simp [h2, hc'', hc']

theorem acvs_era [LinearOrder α] (bc : Bincode α) (c : VoteCounter α)
    (proposer_id : α) (svs : List (SignedVote α)) :
    (add_committed_votes bc c proposer_id svs).1.era = c.era := by
  induction svs generalizing c with
  | nil => rfl
  | cons sv rest ih =>
    unfold add_committed_votes
    rcases h : add_committed_vote bc c proposer_id sv with ⟨c', r⟩
    have hc' : c'.era = c.era := by
      have := acv_era bc c proposer_id sv
      rw [h] at this
      exact this
    rcases r with e | fl
    · simpa using hc'
    · rcases h2 : add_committed_votes bc c' proposer_id rest with ⟨c'', r2⟩
      have hc'' : c''.era = c'.era := by
        have := ih c'
        rw [h2] at this
        exact this
      rcases r2 with e2 | fl2 <;> simp [h2, hc'', hc']

theorem acvs_netinfo [LinearOrder α] (bc : Bincode α) (c : VoteCounter α)
    (proposer_id : α) (svs : List (SignedVote α)) :
    (add_committed_votes bc c proposer_id svs).1.netinfo = c.netinfo := by
  induction svs generalizing c with
  | nil => rfl
  | cons sv rest ih =>
    unfold add_committed_votes
    rcases h : add_committed_vote bc c proposer_id sv with ⟨c', r⟩
    have hc' : c'.netinfo = c.netinfo := by
      have := acv_netinfo bc c proposer_id sv
      rw [h] at this
      exact this
    rcases r with e | fl
    · simpa using hc'
    · rcases h2 : add_committed_votes bc c' proposer_id rest with ⟨c'', r2⟩
      have hc'' : c''.netinfo = c'.netinfo := by
        have := ih c'
        rw [h2] at this
        exact this
      rcases r2 with e2 | fl2 <;> simp [h2, hc'', hc']

theorem acvs_cons [LinearOrder α] (bc : Bincode α) (c : VoteCounter α)
    (proposer_id : α) (sv0 : SignedVote α) (rest : List (SignedVote α)) :
    add_committed_votes bc c proposer_id (sv0 :: rest) =
      match add_committed_vote bc c proposer_id sv0 with
      | (c', .ok fl) =>
        match add_committed_votes bc c' proposer_id rest with
        | (c'', .ok fl') => (c'', .ok (fl ++ fl'))
        | (c'', .error e) => (c'', .error e)
      | (c', .error e) => (c', .error e) := rfl

theorem svf_err [LinearOrder α] (bc : Bincode α) (c : VoteCounter α)
    (change : Change α) (e : ErrorKind)
    (h : (sign_vote_for bc c change).2 = .error e) :
    (sign_vote_for bc c change).1 = c := by
  simp only [sign_vote_for] at h ⊢
  split at h <;> simp_all

theorem apv_err [LinearOrder α] (bc : Bincode α) (c : VoteCounter α)
    (sender_id : α) (sv : SignedVote α) (e : ErrorKind)
    (h : (add_pending_vote bc c sender_id sv).2 = .error e) :
    (add_pending_vote bc c sender_id sv).1 = c := by
  unfold add_pending_vote at h ⊢
  split at h
  · simp_all
  · split at h <;> simp_all

theorem acv_err [LinearOrder α] (bc : Bincode α) (c : VoteCounter α)
    (proposer_id : α) (sv : SignedVote α) (e : ErrorKind)
    (h : (add_committed_vote bc c proposer_id sv).2 = .error e) :
    (add_committed_vote bc c proposer_id sv).1 = c := by
  unfold add_committed_vote at h ⊢
  split at h
  · simp_all
  · split at h
    · simp_all
    · split at h <;> simp_all

/-! ### Concrete instances used by witnesses and counterexamples -/

/-- Public key that accepts every signature. -/
def pkTrue : PublicKey := ⟨fun _ _ => true⟩

/-- Public key that rejects every signature. -/
def pkFalse : PublicKey := ⟨fun _ _ => false⟩

/-- Trivial secret key. -/
def skZero : SecretKey := ⟨fun _ => 0⟩

/-- Network context over `Nat` node ids where every signature verifies. -/
def niTrue : NetworkInfo Nat :=
  { ourUid := 0, numFaulty := 1, publicKey := fun _ => some pkTrue,
    secretKey := skZero }

/-- Network context over `Nat` node ids where no signature verifies. -/
def niFalse : NetworkInfo Nat :=
  { ourUid := 0, numFaulty := 1, publicKey := fun _ => some pkFalse,
    secretKey := skZero }

/-- Serializer that always succeeds. -/
def bcOk : Bincode Nat := ⟨fun v => some [v.era, v.num]⟩

/-- Serializer that always fails, to exercise the hard-error paths. -/
def bcFail : Bincode Nat := ⟨fun _ => none⟩

/-- Fresh counter at era 0 over `niTrue`. -/
def cW : VoteCounter Nat := VoteCounter.new niTrue 0

/-- A vote by node 1 at era 0 with number 0. -/
def sv1 : SignedVote Nat :=
  { vote := { change := .Remove 1, era := 0, num := 0 }, voter := 1, sig := 0 }

/-- Claim C9: frame property — `sign_vote_for` and `add_pending_vote` never
modify the committed map, the era, or the network info; `add_committed_vote`
and `add_committed_votes` never modify the pending map, the era, or the
network info. (`pending_votes` and `compute_winner` take the counter
read-only and return no state by construction of the embedding.) -/
theorem frame_conditions [LinearOrder α] (bc : Bincode α) (c : VoteCounter α)
    (change : Change α) (sender_id proposer_id : α) (sv sv' : SignedVote α)
    (svs : List (SignedVote α)) :
    (sign_vote_for bc c change).1.committed = c.committed
    ∧ (sign_vote_for bc c change).1.era = c.era
    ∧ (sign_vote_for bc c change).1.netinfo = c.netinfo
    ∧ (add_pending_vote bc c sender_id sv).1.committed = c.committed
    ∧ (add_pending_vote bc c sender_id sv).1.era = c.era
    ∧ (add_pending_vote bc c sender_id sv).1.netinfo = c.netinfo
    ∧ (add_committed_vote bc c proposer_id sv').1.pending = c.pending
    ∧ (add_committed_vote bc c proposer_id sv').1.era = c.era
    ∧ (add_committed_vote bc c proposer_id sv').1.netinfo = c.netinfo
    ∧ (add_committed_votes bc c proposer_id svs).1.pending = c.pending
    ∧ (add_committed_votes bc c proposer_id svs).1.era = c.era
    ∧ (add_committed_votes bc c proposer_id svs).1.netinfo = c.netinfo :=
  ⟨svf_committed bc c change, svf_era bc c change, svf_netinfo bc c change,
   apv_committed bc c sender_id sv, apv_era bc c sender_id sv,
   apv_netinfo bc c sender_id sv,
   acv_pending bc c proposer_id sv', acv_era bc c proposer_id sv',
   acv_netinfo bc c proposer_id sv',
   acvs_pending bc c proposer_id svs, acvs_era bc c proposer_id svs,
   acvs_netinfo bc c proposer_id svs⟩

/-- Claim C10: atomicity on hard errors — whenever an operation returns a
serialization error, the returned counter state is exactly the state from
before the failing vote was processed: the single-vote operations return the
input state unchanged, and `add_committed_votes` returns precisely the state
produced by successfully processing some prefix of the batch, with the
failing vote itself leaving that state untouched. -/
theorem hard_error_atomicity [LinearOrder α] (bc : Bincode α)
    (c : VoteCounter α) (change : Change α) (sender_id proposer_id : α)
    (sv : SignedVote α) (svs : List (SignedVote α)) :
    (∀ e, (sign_vote_for bc c change).2 = .error e →
      (sign_vote_for bc c change).1 = c)
    ∧ (∀ e, (add_pending_vote bc c sender_id sv).2 = .error e →
      (add_pending_vote bc c sender_id sv).1 = c)
    ∧ (∀ e, (add_committed_vote bc c proposer_id sv).2 = .error e →
      (add_committed_vote bc c proposer_id sv).1 = c)
    ∧ (∀ e, (add_committed_votes bc c proposer_id svs).2 = .error e →
      ∃ pre sv' suf fl, svs = pre ++ sv' :: suf
        ∧ add_committed_votes bc c proposer_id pre =
            ((add_committed_votes bc c proposer_id svs).1, .ok fl)
        ∧ add_committed_vote bc (add_committed_votes bc c proposer_id svs).1
            proposer_id sv' =
            ((add_committed_votes bc c proposer_id svs).1, .error e)) := by
  refine ⟨fun e h => svf_err bc c change e h,
    fun e h => apv_err bc c sender_id sv e h,
    fun e h => acv_err bc c proposer_id sv e h, ?_⟩
  induction svs generalizing c with
  | nil => intro e h; simp [add_committed_votes] at h
  | cons sv0 rest ih =>
    intro e h
    rcases h0 : add_committed_vote bc c proposer_id sv0 with ⟨c1, r0⟩
    rcases r0 with e0 | fl0
    · have hrun : add_committed_votes bc c proposer_id (sv0 :: rest) =
          (c1, .error e0) := by
        rw [acvs_cons, h0]
      have hc1 : c1 = c := by
        have h2 := acv_err bc c proposer_id sv0 e0 (by rw [h0])
        rw [h0] at h2
        exact h2
      rw [hrun] at h
      replace h : e0 = e := by simpa using h
      subst h
      subst hc1
      rw [hrun]
      exact ⟨[], sv0, rest, [], rfl, rfl, h0⟩
    · rcases h1 : add_committed_votes bc c1 proposer_id rest with ⟨c2, r1⟩
      rcases r1 with e1 | fl1
      · have hrun : add_committed_votes bc c proposer_id (sv0 :: rest) =
            (c2, .error e1) := by
          rw [acvs_cons, h0]
          dsimp only
          rw [h1]
        rw [hrun] at h
        replace h : e1 = e := by simpa using h
        subst h
        have hrec := ih c1 e1 (by rw [h1])
        rw [h1] at hrec
        dsimp only at hrec
        rcases hrec with ⟨pre, sv', suf, fl, hsplit, hpre, hfail⟩
        rw [hrun]
        dsimp only
        refine ⟨sv0 :: pre, sv', suf, fl0 ++ fl, by simp [hsplit], ?_, hfail⟩
        rw [acvs_cons, h0]
        dsimp only
        rw [hpre]
      · have hrun : add_committed_votes bc c proposer_id (sv0 :: rest) =
            (c2, .ok (fl0 ++ fl1)) := by
          rw [acvs_cons, h0]
          dsimp only
          rw [h1]
        rw [hrun] at h
        simp at h

/-- Witness for C10: with a serializer that always fails, each operation
returns a hard error and leaves the concrete counter `cW` unchanged. -/
theorem hard_error_atomicity_witness :
    (sign_vote_for bcFail cW (Change.Remove 1)).1 = cW
    ∧ (add_pending_vote bcFail cW 2 sv1).1 = cW
    ∧ (add_committed_vote bcFail cW 2 sv1).1 = cW
    ∧ (∃ pre sv' suf fl, ([sv1] : List (SignedVote Nat)) = pre ++ sv' :: suf
        ∧ add_committed_votes bcFail cW 2 pre =
            ((add_committed_votes bcFail cW 2 [sv1]).1, .ok fl)
        ∧ add_committed_vote bcFail (add_committed_votes bcFail cW 2 [sv1]).1
            2 sv' =
            ((add_committed_votes bcFail cW 2 [sv1]).1,
             .error .ValidateBincode)) :=
  ⟨(hard_error_atomicity bcFail cW (Change.Remove 1) 2 2 sv1 [sv1]).1
      .SignVoteForBincode rfl,
   (hard_error_atomicity bcFail cW (Change.Remove 1) 2 2 sv1 [sv1]).2.1
      .ValidateBincode rfl,
   (hard_error_atomicity bcFail cW (Change.Remove 1) 2 2 sv1 [sv1]).2.2.1
      .ValidateBincode rfl,
   (hard_error_atomicity bcFail cW (Change.Remove 1) 2 2 sv1 [sv1]).2.2.2
      .ValidateBincode rfl⟩

/-- Claim C2: a signed vote whose signature does not verify against the
claimed voter's public key (including an unknown voter), and that is not
filtered out as obsolete, is stored in neither map, and each call returns
exactly one fault entry attributing the fault to the submitting party:
`(sender_id, InvalidVoteSignature)` for `add_pending_vote` and
`(proposer_id, InvalidCommittedVote)` for `add_committed_vote` — never to
the claimed voter. -/
theorem invalid_signature_never_stored [LinearOrder α] (bc : Bincode α)
    (c : VoteCounter α) (sender_id proposer_id : α) (sv : SignedVote α)
    (hval : validate bc c.netinfo sv = .ok false) :
    (sv.vote.era = c.era →
      (∀ old, findKV sv.voter c.pending = some old →
        old.vote.num < sv.vote.num) →
      add_pending_vote bc c sender_id sv =
        (c, .ok (FaultLog.init sender_id FaultKind.InvalidVoteSignature)))
    ∧ ((∀ old, findKV sv.voter c.committed = some old →
        old.num < sv.vote.num) →
      add_committed_vote bc c proposer_id sv =
        (c, .ok (FaultLog.init proposer_id FaultKind.InvalidCommittedVote))) := by
  constructor
  · intro hera hnew
    have hcond : ((sv.vote.era != c.era) ||
        mapOr (findKV sv.voter c.pending) false
          (fun old => decide (sv.vote.num ≤ old.vote.num))) = false := by
      rcases hf : findKV sv.voter c.pending with _ | old <;>
        simp [hf, mapOr, bne, hera, Nat.not_le]
      exact hnew old hf
    unfold add_pending_vote
    rw [hcond]
    simp [hval]
  · intro hnew
    have hcond : (mapOr (findKV sv.voter c.committed) false
        (fun old => decide (sv.vote.num ≤ old.num))) = false := by
      rcases hf : findKV sv.voter c.committed with _ | old <;>
        simp [hf, mapOr, Nat.not_le]
      exact hnew old hf
    unfold add_committed_vote
    rw [hcond]
    by_cases hera : sv.vote.era = c.era <;> simp [hera, bne, hval]

/-- Witness for C2: a concrete invalid vote (the context `niFalse` rejects
all signatures) is rejected with a single fault against the submitter on
both paths. -/
theorem invalid_signature_never_stored_witness :
    validate bcOk (VoteCounter.new niFalse 0).netinfo sv1 = .ok false
    ∧ (sv1.vote.era = (VoteCounter.new niFalse 0).era →
      (∀ old, findKV sv1.voter (VoteCounter.new niFalse 0).pending = some old →
        old.vote.num < sv1.vote.num) →
      add_pending_vote bcOk (VoteCounter.new niFalse 0) 2 sv1 =
        (VoteCounter.new niFalse 0,
         .ok (FaultLog.init 2 FaultKind.InvalidVoteSignature)))
    ∧ ((∀ old, findKV sv1.voter (VoteCounter.new niFalse 0).committed =
          some old → old.num < sv1.vote.num) →
      add_committed_vote bcOk (VoteCounter.new niFalse 0) 3 sv1 =
        (VoteCounter.new niFalse 0,
         .ok (FaultLog.init 3 FaultKind.InvalidCommittedVote))) :=
  ⟨rfl,
   (invalid_signature_never_stored bcOk (VoteCounter.new niFalse 0) 2 3 sv1
      rfl).1,
   (invalid_signature_never_stored bcOk (VoteCounter.new niFalse 0) 2 3 sv1
      rfl).2⟩

/-- Concrete committed vote by voter 0 at era 0 with number 5. -/
def cvC3 : Vote Nat := { change := .Remove 1, era := 0, num := 5 }

/-- Concrete counter at era 0 whose committed map holds `cvC3` for voter 0. -/
def cC3 : VoteCounter Nat :=
  { netinfo := niTrue, era := 0, pending := [], committed := [(0, cvC3)] }

/-- Concrete vote by voter 0 with era 1 (mismatching `cC3.era = 0`) and
number 3, which is obsolete with respect to `cvC3.num = 5`. -/
def svC3 : SignedVote Nat :=
  { vote := { change := .Remove 1, era := 1, num := 3 }, voter := 0, sig := 0 }

/-- Counterexample to claim C3 as stated: for an era-mismatched vote that is
also obsolete with respect to the committed map, `add_committed_vote`
returns an empty fault log instead of recording
`(proposer_id, InvalidCommittedVote)`. -/
theorem era_mismatch_counterexample :
    svC3.vote.era ≠ cC3.era
    ∧ add_committed_vote bcOk cC3 9 svC3 = (cC3, .ok FaultLog.new)
    ∧ (FaultLog.new : FaultLog Nat) ≠
        FaultLog.init 9 FaultKind.InvalidCommittedVote :=
  ⟨by decide, rfl, by decide⟩

/-- Claim C3 (amended): a signed vote whose era differs from the counter's
era is never stored in `pending` or `committed` regardless of signature
validity; `add_pending_vote` ignores it silently with an empty fault log,
and `add_committed_vote` records a `(proposer_id, InvalidCommittedVote)`
fault entry unless the committed map already holds a vote of the same voter
with a number at least as large, in which case the vote is ignored silently
with an empty fault log. -/
theorem era_mismatch_never_stored [LinearOrder α] (bc : Bincode α)
    (c : VoteCounter α) (sender_id proposer_id : α) (sv : SignedVote α)
    (hera : sv.vote.era ≠ c.era) :
    add_pending_vote bc c sender_id sv = (c, .ok FaultLog.new)
    ∧ ((∀ old, findKV sv.voter c.committed = some old →
          old.num < sv.vote.num) →
        add_committed_vote bc c proposer_id sv =
          (c, .ok (FaultLog.init proposer_id FaultKind.InvalidCommittedVote)))
    ∧ (∀ old, findKV sv.voter c.committed = some old →
        sv.vote.num ≤ old.num →
        add_committed_vote bc c proposer_id sv = (c, .ok FaultLog.new)) := by
  refine ⟨?_, ?_, ?_⟩
  · unfold add_pending_vote
    simp [bne, hera]
  · intro hnew
    have hcond : (mapOr (findKV sv.voter c.committed) false
        (fun old => decide (sv.vote.num ≤ old.num))) = false := by
      rcases hf : findKV sv.voter c.committed with _ | old <;>
        simp [hf, mapOr, Nat.not_le]
      exact hnew old hf
    unfold add_committed_vote
    rw [hcond]
    simp [bne, hera]
  · intro old hf hle
    unfold add_committed_vote
    simp [hf, mapOr, hle]

/-- Witness for C3 (amended): era-1 votes offered to the fresh era-0 counter
`cW` are silently dropped on the pending path and faulted on the committed
path. -/
theorem era_mismatch_never_stored_witness :
    svC3.vote.era ≠ cW.era
    ∧ add_pending_vote bcOk cW 2 svC3 = (cW, .ok FaultLog.new)
    ∧ ((∀ old, findKV svC3.voter cW.committed = some old →
          old.num < svC3.vote.num) →
        add_committed_vote bcOk cW 3 svC3 =
          (cW, .ok (FaultLog.init 3 FaultKind.InvalidCommittedVote)))
    ∧ (∀ old, findKV svC3.voter cW.committed = some old →
        svC3.vote.num ≤ old.num →
        add_committed_vote bcOk cW 3 svC3 = (cW, .ok FaultLog.new)) :=
  ⟨by decide,
   (era_mismatch_never_stored bcOk cW 2 3 svC3 (by decide)).1,
   (era_mismatch_never_stored bcOk cW 2 3 svC3 (by decide)).2.1,
   (era_mismatch_never_stored bcOk cW 2 3 svC3 (by decide)).2.2⟩

/-- One `add_pending_vote` call, viewed as a relation on counter states. -/
def PendStep [LinearOrder α] (bc : Bincode α) (c c' : VoteCounter α) : Prop :=
  ∃ sender_id sv r, add_pending_vote bc c sender_id sv = (c', r)

theorem apv_pending_mono [LinearOrder α] (bc : Bincode α) (c : VoteCounter α)
    (sender_id : α) (sv : SignedVote α) (w : α) (old : SignedVote α)
    (h : findKV w c.pending = some old) :
    ∃ new, findKV w (add_pending_vote bc c sender_id sv).1.pending = some new
      ∧ old.vote.num ≤ new.vote.num := by
  rw [apv_fst]
  by_cases hs : pend_stores bc c.netinfo c.era c.pending sv = true
  · rw [if_pos hs]
    by_cases hw : w = sv.voter
    · subst hw
      refine ⟨sv, findKV_insertKV_self sv.voter sv c.pending, ?_⟩
      have := ((pend_stores_true_iff bc c.netinfo c.era c.pending sv).mp hs).2.1 old h
      omega
    · exact ⟨old, by rw [findKV_insertKV_ne sv c.pending hw]; exact h,
        le_refl _⟩
  · rw [if_neg hs]
    exact ⟨old, h, le_refl _⟩

/-- Claim C4: across any sequence of `add_pending_vote` calls the stored
pending `num` of each voter never decreases, and a call offering a vote
whose `num` is at most the currently stored pending `num` for that voter
returns an empty fault log and leaves the state unchanged. -/
theorem pending_num_monotone [LinearOrder α] (bc : Bincode α)
    {c c' : VoteCounter α} (h : Relation.ReflTransGen (PendStep bc) c c') :
    (∀ w old, findKV w c.pending = some old →
      ∃ new, findKV w c'.pending = some new ∧ old.vote.num ≤ new.vote.num)
    ∧ (∀ sender_id sv old, findKV sv.voter c'.pending = some old →
        sv.vote.num ≤ old.vote.num →
        add_pending_vote bc c' sender_id sv = (c', .ok FaultLog.new)) := by
  constructor
  · induction h with
    | refl => exact fun w old h => ⟨old, h, le_refl _⟩
    | @tail b cnext hsteps hstep ih =>
      intro w old hfind
      rcases ih w old hfind with ⟨mid, hmid, hle⟩
      rcases hstep with ⟨sender_id, sv, r, heq⟩
      have hm := apv_pending_mono bc b sender_id sv w mid hmid
      have hfst : (add_pending_vote bc b sender_id sv).1 = cnext := by
        rw [heq]
      rw [hfst] at hm
      rcases hm with ⟨new, hnew, hle2⟩
      exact ⟨new, hnew, le_trans hle hle2⟩
  · intro sender_id sv old hf hle
    unfold add_pending_vote
    have hcond : (mapOr (findKV sv.voter c'.pending) false
        (fun o => decide (sv.vote.num ≤ o.vote.num))) = true := by
      simp [hf, mapOr, hle]
    simp [hcond]

/-- Witness for C4: one concrete `add_pending_vote` step from the empty
counter `cW`, reached through the reflexive-transitive closure. -/
theorem pending_num_monotone_witness :
    (∀ w old, findKV w cW.pending = some old →
      ∃ new, findKV w (add_pending_vote bcOk cW 2 sv1).1.pending = some new
        ∧ old.vote.num ≤ new.vote.num)
    ∧ (∀ sender_id sv old,
        findKV sv.voter (add_pending_vote bcOk cW 2 sv1).1.pending =
          some old →
        sv.vote.num ≤ old.vote.num →
        add_pending_vote bcOk (add_pending_vote bcOk cW 2 sv1).1 sender_id sv
          = ((add_pending_vote bcOk cW 2 sv1).1, .ok FaultLog.new)) :=
  pending_num_monotone bcOk
    (Relation.ReflTransGen.single
      ⟨2, sv1, (add_pending_vote bcOk cW 2 sv1).2, rfl⟩)

/-- Claim C8: `sign_vote_for` builds a vote with the counter's era and with
number one greater than the local node's currently pending vote's number
(zero if none is pending — read from `pending`, not `committed`), stores the
signed vote into `pending` keyed by the local node id (overwriting any prior
entry), and returns exactly the stored value. -/
theorem sign_vote_for_correct [LinearOrder α] (bc : Bincode α)
    (c c' : VoteCounter α) (change : Change α) (sv : SignedVote α)
    (h : sign_vote_for bc c change = (c', .ok sv)) :
    sv.voter = c.netinfo.ourUid
    ∧ sv.vote.change = change
    ∧ sv.vote.era = c.era
    ∧ (findKV c.netinfo.ourUid c.pending = none → sv.vote.num = 0)
    ∧ (∀ old, findKV c.netinfo.ourUid c.pending = some old →
        sv.vote.num = old.vote.num + 1)
    ∧ c'.pending = insertKV c.netinfo.ourUid sv c.pending
    ∧ findKV c.netinfo.ourUid c'.pending = some sv
    ∧ c'.committed = c.committed
    ∧ c'.era = c.era := by
  simp only [sign_vote_for] at h
  split at h
  · simp at h
  · rw [Prod.ext_iff] at h
    obtain ⟨hc', hsv⟩ := h
    simp only [Except.ok.injEq] at hsv
    subst hsv
    subst hc'
    refine ⟨rfl, rfl, rfl, ?_, ?_, rfl,
      findKV_insertKV_self _ _ c.pending, rfl, rfl⟩
    · intro hn
      simp [hn, mapOr]
    · intro old hold
      simp [hold, mapOr]

/-- The concrete signed vote produced by `sign_vote_for` on `cW`. -/
def svW8 : SignedVote Nat :=
  { vote := { change := .Remove 2, era := 0, num := 0 }, voter := 0, sig := 0 }

/-- Witness for C8: signing `Remove 2` on the fresh counter `cW` stores and
returns the concrete vote `svW8` with number 0. -/
theorem sign_vote_for_correct_witness :
    svW8.voter = cW.netinfo.ourUid
    ∧ svW8.vote.change = Change.Remove 2
    ∧ svW8.vote.era = cW.era
    ∧ (findKV cW.netinfo.ourUid cW.pending = none → svW8.vote.num = 0)
    ∧ (∀ old, findKV cW.netinfo.ourUid cW.pending = some old →
        svW8.vote.num = old.vote.num + 1)
    ∧ (sign_vote_for bcOk cW (Change.Remove 2)).1.pending =
        insertKV cW.netinfo.ourUid svW8 cW.pending
    ∧ findKV cW.netinfo.ourUid
        (sign_vote_for bcOk cW (Change.Remove 2)).1.pending = some svW8
    ∧ (sign_vote_for bcOk cW (Change.Remove 2)).1.committed = cW.committed
    ∧ (sign_vote_for bcOk cW (Change.Remove 2)).1.era = cW.era :=
  sign_vote_for_correct bcOk cW (sign_vote_for bcOk cW (Change.Remove 2)).1
    (Change.Remove 2) svW8 rfl

/-- All votes stored in the two maps are tagged with the counter's era. -/
def ErasOK (c : VoteCounter α) : Prop :=
  (∀ kv ∈ c.pending, kv.2.vote.era = c.era)
  ∧ ∀ kv ∈ c.committed, kv.2.era = c.era

/-- One call of any mutating `VoteCounter` operation, as a relation on
counter states. -/
inductive Step [LinearOrder α] (bc : Bincode α) :
    VoteCounter α → VoteCounter α → Prop
  | sign : ∀ c change, Step bc c (sign_vote_for bc c change).1
  | pend : ∀ c sender_id sv, Step bc c (add_pending_vote bc c sender_id sv).1
  | comm : ∀ c proposer_id sv,
      Step bc c (add_committed_vote bc c proposer_id sv).1
  | comms : ∀ c proposer_id svs,
      Step bc c (add_committed_votes bc c proposer_id svs).1

theorem svf_eras_ok [LinearOrder α] (bc : Bincode α) (c : VoteCounter α)
    (change : Change α) (h : ErasOK c) :
    ErasOK (sign_vote_for bc c change).1 := by
  simp only [sign_vote_for]
  split
  · exact h
  · constructor
    · intro kv hkv
      rcases mem_insertKV hkv with h1 | h1
      · rw [h1]
      · exact h.1 kv h1
    · exact h.2

theorem apv_eras_ok [LinearOrder α] (bc : Bincode α) (c : VoteCounter α)
    (sender_id : α) (sv : SignedVote α) (h : ErasOK c) :
    ErasOK (add_pending_vote bc c sender_id sv).1 := by
  rw [apv_fst]
  by_cases hs : pend_stores bc c.netinfo c.era c.pending sv = true
  · rw [if_pos hs]
    constructor
    · intro kv hkv
      rcases mem_insertKV hkv with h1 | h1
      · rw [h1]
        exact ((pend_stores_true_iff bc c.netinfo c.era c.pending sv).mp hs).1
      · exact h.1 kv h1
    · exact h.2
  · rw [if_neg hs]
    exact h

theorem acv_eras_ok [LinearOrder α] (bc : Bincode α) (c : VoteCounter α)
    (proposer_id : α) (sv : SignedVote α) (h : ErasOK c) :
    ErasOK (add_committed_vote bc c proposer_id sv).1 := by
  rw [acv_fst]
  by_cases hs : comm_stores bc c.netinfo c.era c.committed sv = true
  · rw [if_pos hs]
    constructor
    · exact h.1
    · intro kv hkv
      rcases mem_insertKV hkv with h1 | h1
      · rw [h1]
        exact ((comm_stores_true_iff bc c.netinfo c.era c.committed sv).mp hs).1
      · exact h.2 kv h1
  · rw [if_neg hs]
    exact h

theorem acvs_eras_ok [LinearOrder α] (bc : Bincode α) (c : VoteCounter α)
    (proposer_id : α) (svs : List (SignedVote α)) (h : ErasOK c) :
    ErasOK (add_committed_votes bc c proposer_id svs).1 := by
  induction svs generalizing c with
  | nil => exact h
  | cons sv0 rest ih =>
    rw [acvs_cons]
    rcases h0 : add_committed_vote bc c proposer_id sv0 with ⟨c1, r0⟩
    have hc1 : ErasOK c1 := by
      have h2 := acv_eras_ok bc c proposer_id sv0 h
      rw [h0] at h2
      exact h2
    rcases r0 with e0 | fl0
    · exact hc1
    · dsimp only
      rcases h1 : add_committed_votes bc c1 proposer_id rest with ⟨c2, r1⟩
      have hc2 : ErasOK c2 := by
        have h2 := ih c1 hc1
        rw [h1] at h2
        exact h2
      rcases r1 with e1 | fl1 <;> simp [h1] <;> exact hc2

theorem acv_committed_mono [LinearOrder α] (bc : Bincode α)
    (c : VoteCounter α) (proposer_id : α) (sv : SignedVote α) (w : α)
    (v : Vote α) (h : findKV w c.committed = some v) :
    ∃ v', findKV w (add_committed_vote bc c proposer_id sv).1.committed =
        some v' ∧ v.num ≤ v'.num ∧ (v' ≠ v → v.num < v'.num) := by
  rw [acv_fst]
  by_cases hs : comm_stores bc c.netinfo c.era c.committed sv = true
  · rw [if_pos hs]
    by_cases hw : w = sv.voter
    · subst hw
      refine ⟨sv.vote, findKV_insertKV_self sv.voter sv.vote c.committed,
        ?_, ?_⟩
      · have := ((comm_stores_true_iff bc c.netinfo c.era c.committed sv).mp hs).2.1 v h
        omega
      · intro _
        exact ((comm_stores_true_iff bc c.netinfo c.era c.committed sv).mp hs).2.1 v h
    · exact ⟨v, by rw [findKV_insertKV_ne sv.vote c.committed hw]; exact h,
        le_refl _, fun hne => absurd rfl hne⟩
  · rw [if_neg hs]
    exact ⟨v, h, le_refl _, fun hne => absurd rfl hne⟩

theorem acvs_committed_mono [LinearOrder α] (bc : Bincode α)
    (c : VoteCounter α) (proposer_id : α) (svs : List (SignedVote α)) (w : α)
    (v : Vote α) (h : findKV w c.committed = some v) :
    ∃ v', findKV w (add_committed_votes bc c proposer_id svs).1.committed =
        some v' ∧ v.num ≤ v'.num ∧ (v' ≠ v → v.num < v'.num) := by
  induction svs generalizing c v with
  | nil => exact ⟨v, h, le_refl _, fun hne => absurd rfl hne⟩
  | cons sv0 rest ih =>
    rw [acvs_cons]
    rcases h0 : add_committed_vote bc c proposer_id sv0 with ⟨c1, r0⟩
    have hc1 : ∃ v1, findKV w c1.committed = some v1 ∧ v.num ≤ v1.num
        ∧ (v1 ≠ v → v.num < v1.num) := by
      have h2 := acv_committed_mono bc c proposer_id sv0 w v h
      rw [h0] at h2
      exact h2
    rcases hc1 with ⟨v1, hv1, hle1, hst1⟩
    rcases r0 with e0 | fl0
    · exact ⟨v1, hv1, hle1, hst1⟩
    · dsimp only
      rcases h1 : add_committed_votes bc c1 proposer_id rest with ⟨c2, r1⟩
      have hc2 : ∃ v2, findKV w c2.committed = some v2 ∧ v1.num ≤ v2.num
          ∧ (v2 ≠ v1 → v1.num < v2.num) := by
        have h2 := ih c1 v1 hv1
        rw [h1] at h2
        exact h2
      rcases hc2 with ⟨v2, hv2, hle2, hst2⟩
      have hcomp : v.num ≤ v2.num ∧ (v2 ≠ v → v.num < v2.num) := by
        constructor
        · omega
        · intro hne
          by_cases hv12 : v1 = v
          · subst hv12
            exact hst2 hne
          · have := hst1 hv12
            omega
      rcases r1 with e1 | fl1 <;> simp [h1] <;>
        exact ⟨v2, hv2, hcomp.1, hcomp.2⟩

theorem step_invariants [LinearOrder α] (bc : Bincode α)
    {c c' : VoteCounter α} (h : Step bc c c') :
    c'.era = c.era ∧ (ErasOK c → ErasOK c')
    ∧ ∀ w v, findKV w c.committed = some v →
      ∃ v', findKV w c'.committed = some v' ∧ v.num ≤ v'.num
        ∧ (v' ≠ v → v.num < v'.num) := by
  cases h with
  | sign change => ?_
  | pend sender_id sv => ?_
  | comm proposer_id sv => ?_
  | comms proposer_id svs => ?_
  · refine ⟨svf_era bc c change, svf_eras_ok bc c change, ?_⟩
    intro w v hv
    refine ⟨v, ?_, le_refl _, fun hne => absurd rfl hne⟩
    rw [svf_committed bc c change]
    exact hv
  · refine ⟨apv_era bc c sender_id sv, apv_eras_ok bc c sender_id sv, ?_⟩
    intro w v hv
    refine ⟨v, ?_, le_refl _, fun hne => absurd rfl hne⟩
    rw [apv_committed bc c sender_id sv]
    exact hv
  · exact ⟨acv_era bc c proposer_id sv, acv_eras_ok bc c proposer_id sv,
      fun w v hv => acv_committed_mono bc c proposer_id sv w v hv⟩
  · exact ⟨acvs_era bc c proposer_id svs, acvs_eras_ok bc c proposer_id svs,
      fun w v hv => acvs_committed_mono bc c proposer_id svs w v hv⟩

/-- Claim C5: across any sequence of `VoteCounter` operations the era is
never mutated; if every stored vote carries the counter's era then this
stays true (and it holds for the empty counter); the committed map never
loses an entry; and each voter's committed vote number only ever increases
(strictly, whenever the entry changes). -/
theorem era_and_committed_invariants [LinearOrder α] (bc : Bincode α)
    {c c' : VoteCounter α} (h : Relation.ReflTransGen (Step bc) c c') :
    c'.era = c.era
    ∧ (ErasOK c → ErasOK c')
    ∧ ∀ w v, findKV w c.committed = some v →
      ∃ v', findKV w c'.committed = some v' ∧ v.num ≤ v'.num
        ∧ (v' ≠ v → v.num < v'.num) := by
  induction h with
  | refl =>
    exact ⟨rfl, id, fun w v hv => ⟨v, hv, le_refl _,
      fun hne => absurd rfl hne⟩⟩
  | @tail b cnext hsteps hstep ih =>
    rcases step_invariants bc hstep with ⟨hera, hok, hmono⟩
    refine ⟨hera.trans ih.1, fun h0 => hok (ih.2.1 h0), ?_⟩
    intro w v hv
    rcases ih.2.2 w v hv with ⟨v1, hv1, hle1, hst1⟩
    rcases hmono w v1 hv1 with ⟨v2, hv2, hle2, hst2⟩
    refine ⟨v2, hv2, le_trans hle1 hle2, ?_⟩
    intro hne
    by_cases hv12 : v1 = v
    · subst hv12
      exact hst2 hne
    · have := hst1 hv12
      omega

/-- Witness for C5: one concrete `add_committed_vote` step from the empty
counter `cW`, reached through the reflexive-transitive closure. -/
theorem era_and_committed_invariants_witness :
    (add_committed_vote bcOk cW 3 sv1).1.era = cW.era
    ∧ (ErasOK cW → ErasOK (add_committed_vote bcOk cW 3 sv1).1)
    ∧ ∀ w v, findKV w cW.committed = some v →
      ∃ v', findKV w (add_committed_vote bcOk cW 3 sv1).1.committed = some v'
        ∧ v.num ≤ v'.num ∧ (v' ≠ v → v.num < v'.num) :=
  era_and_committed_invariants bcOk
    (Relation.ReflTransGen.single (Step.comm cW 3 sv1))

/-- Well-formedness of a counter state as produced by real `BTreeMap`s: both
maps' keys are strictly sorted (`BTreeMap` iteration order), and every
pending entry is keyed by its vote's claimed voter (every insertion into
`pending` uses that key). -/
def WF [LinearOrder α] (c : VoteCounter α) : Prop :=
  c.pending.Pairwise (fun x y => x.1 < y.1)
  ∧ c.committed.Pairwise (fun x y => x.1 < y.1)
  ∧ ∀ kv ∈ c.pending, kv.2.voter = kv.1

/-- Claim C6: `pending_votes` yields, in voter-key order, exactly those
pending entries whose vote number strictly exceeds the committed vote's
number for the same voter, plus all pending entries of voters with no
committed entry; in particular a pending entry with number at most the
committed one is excluded and one with a greater number is included. -/
theorem pending_votes_correct [LinearOrder α] (c : VoteCounter α)
    (hwf : WF c) :
    (∀ sv, sv ∈ pending_votes c ↔
      (findKV sv.voter c.pending = some sv
        ∧ ∀ v, findKV sv.voter c.committed = some v → v.num < sv.vote.num))
    ∧ ((pending_votes c).map (fun sv => sv.voter)).Pairwise (· < ·) := by
  obtain ⟨hp, hc, hkey⟩ := hwf
  constructor
  · intro sv
    unfold pending_votes
    rw [List.mem_filter]
    constructor
    · rintro ⟨hmem, hpred⟩
      rw [List.mem_map] at hmem
      rcases hmem with ⟨kv, hkv, hsnd⟩
      have hkeq : kv.1 = sv.voter := by rw [← hkey kv hkv, hsnd]
      have hmem2 : (sv.voter, sv) ∈ c.pending := by
        have hkv2 : kv = (sv.voter, sv) := by
          rcases kv with ⟨k1, v1⟩
          simp only at hsnd hkeq
          rw [hsnd, hkeq]
        rwa [hkv2] at hkv
      refine ⟨(mem_iff_findKV hp).mp hmem2, ?_⟩
      intro v hv
      simp only [hv, mapOr, decide_eq_true_eq] at hpred
      exact hpred
    · rintro ⟨hfind, hnew⟩
      have hmem : (sv.voter, sv) ∈ c.pending := findKV_mem hfind
      constructor
      · exact List.mem_map.mpr ⟨(sv.voter, sv), hmem, rfl⟩
      · rcases hcv : findKV sv.voter c.committed with _ | v <;>
          simp [mapOr, hcv]
        exact hnew v hcv
  · have hsub : List.Sublist (pending_votes c) (c.pending.map Prod.snd) := by
      unfold pending_votes
      exact List.filter_sublist _
    have hmap : List.Sublist ((pending_votes c).map (fun sv => sv.voter))
        ((c.pending.map Prod.snd).map (fun sv => sv.voter)) :=
      hsub.map _
    have hkeys : (c.pending.map Prod.snd).map (fun sv => sv.voter) =
        c.pending.map Prod.fst := by
      rw [List.map_map]
      exact List.map_congr_left (fun kv hkv => hkey kv hkv)
    have hpair : (c.pending.map Prod.fst).Pairwise (· < ·) :=
      hp.map _ (fun a b h => h)
    rw [hkeys] at hmap
    exact hpair.sublist hmap

/-- Concrete well-formed counter: voter 1's vote pending, voter 0's vote
committed. -/
def c6 : VoteCounter Nat :=
  { netinfo := niTrue, era := 0, pending := [(1, sv1)],
    committed := [(0, cvC3)] }

/-- Witness for C6: the concrete well-formed state `c6`. -/
theorem pending_votes_correct_witness :
    WF c6
    ∧ ((∀ sv, sv ∈ pending_votes c6 ↔
        (findKV sv.voter c6.pending = some sv
          ∧ ∀ v, findKV sv.voter c6.committed = some v →
              v.num < sv.vote.num))
      ∧ ((pending_votes c6).map (fun sv => sv.voter)).Pairwise (· < ·)) := by
  have hwf : WF c6 := by
    refine ⟨by simp [c6], by simp [c6], ?_⟩
    intro kv hkv
    simp only [c6, List.mem_singleton] at hkv
    rw [hkv]
    rfl
  exact ⟨hwf, pending_votes_correct c6 hwf⟩

/-- Specification-level tally: the first change in the list whose running
count — the number of occurrences among the elements seen so far, the
current one included — exceeds `f`; `seen` is the already-traversed
prefix. -/
def winner_spec [DecidableEq α] (f : Nat) :
    List (Change α) → List (Change α) → Option (Change α)
  | [], _ => none
  | ch :: rest, seen =>
    if f < (seen ++ [ch]).count ch then some ch
    else winner_spec f rest (seen ++ [ch])

theorem compute_winner_go_eq_winner_spec [DecidableEq α] (f : Nat)
    (l : List (Vote α)) (seen : List (Change α)) (counts : Change α → Nat)
    (hcounts : ∀ ch, counts ch = seen.count ch) :
    compute_winner_go f l counts = winner_spec f (l.map Vote.change) seen := by
  induction l generalizing seen counts with
  | nil => rfl
  | cons v rest ih =>
    simp only [compute_winner_go, List.map_cons, winner_spec]
    have hcnt : (seen ++ [v.change]).count v.change = counts v.change + 1 := by
      simp [List.count_append, hcounts]
    rw [hcnt]
    by_cases hf : f < counts v.change + 1
    · simp [hf]
    · rw [if_neg hf, if_neg hf]
      apply ih
      intro ch
      by_cases hch : ch = v.change
      · subst hch
        simp [List.count_append, hcounts]
      · simp [List.count_append, hch, hcounts]

theorem compute_winner_go_isSome [DecidableEq α] (f : Nat)
    (l : List (Vote α)) (counts : Change α → Nat) :
    (compute_winner_go f l counts).isSome = true ↔
      ∃ ch, 0 < (l.map Vote.change).count ch
        ∧ f < counts ch + (l.map Vote.change).count ch := by
  induction l generalizing counts with
  | nil => simp [compute_winner_go]
  | cons v rest ih =>
    simp only [compute_winner_go, List.map_cons]
    by_cases hf : f < counts v.change + 1
    · simp only [if_pos hf, Option.isSome_some, true_iff]
      refine ⟨v.change, by simp [List.count_cons], ?_⟩
      have hle : (rest.map Vote.change).count v.change + 1 =
          (v.change :: rest.map Vote.change).count v.change := by
        simp [List.count_cons]
      omega
    · rw [if_neg hf, ih]
      constructor
      · rintro ⟨ch, hpos, hlt⟩
        by_cases hch : ch = v.change
        · subst hch
          simp at hlt
          refine ⟨v.change, by simp [List.count_cons], ?_⟩
          simp [List.count_cons]
          omega
        · simp only [if_neg hch] at hlt
          refine ⟨ch, ?_, ?_⟩
          · simpa [List.count_cons, hch] using hpos
          · simpa [List.count_cons, hch] using hlt
      · rintro ⟨ch, hpos, hlt⟩
        by_cases hch : ch = v.change
        · subst hch
          rcases Nat.eq_zero_or_pos ((rest.map Vote.change).count v.change)
            with hz | hz
          · exfalso
            simp [List.count_cons, hz] at hlt
            omega
          · refine ⟨v.change, hz, ?_⟩
            simp [List.count_cons] at hlt ⊢
            omega
        · refine ⟨ch, ?_, ?_⟩
          · simpa [List.count_cons, hch] using hpos
          · simp only [if_neg hch]
            simpa [List.count_cons, hch] using hlt

theorem compute_winner_go_some_count [DecidableEq α] (f : Nat)
    (l : List (Vote α)) (counts : Change α → Nat) (ch : Change α)
    (h : compute_winner_go f l counts = some ch) :
    f < counts ch + (l.map Vote.change).count ch := by
  induction l generalizing counts with
  | nil => simp [compute_winner_go] at h
  | cons v rest ih =>
    simp only [compute_winner_go] at h
    by_cases hf : f < counts v.change + 1
    · rw [if_pos hf] at h
      have hvc : v.change = ch := by simpa using h
      subst hvc
      simp [List.count_cons]
      omega
    · rw [if_neg hf] at h
      have hrec := ih _ h
      by_cases hch : ch = v.change
      · subst hch
        simp at hrec
        simp [List.count_cons]
        omega
      · simp only [if_neg hch] at hrec
        simpa [List.count_cons, hch] using hrec

theorem committed_voter_card [LinearOrder α] (c : VoteCounter α)
    (hc : c.committed.Pairwise (fun x y => x.1 < y.1)) (ch : Change α) :
    ((c.committed.filter (fun kv => decide (kv.2.change = ch))).map
        Prod.fst).toFinset.card =
      ((c.committed.map Prod.snd).map Vote.change).count ch := by
  have hkeysorted : (c.committed.map Prod.fst).Pairwise (· < ·) :=
    hc.map _ (fun a b h => h)
  have h1 : (c.committed.map Prod.fst).Nodup :=
    hkeysorted.imp (fun h => ne_of_lt h)
  have hsub : List.Sublist
      ((c.committed.filter (fun kv => decide (kv.2.change = ch))).map
        Prod.fst)
      (c.committed.map Prod.fst) :=
    (List.filter_sublist _).map _
  have hnodup := h1.sublist hsub
  rw [List.toFinset_card_of_nodup hnodup, List.length_map,
    ← List.countP_eq_length_filter, List.map_map, List.count_eq_countP,
    List.countP_map]
  rfl

/-- Claim C1: `compute_winner` returns some change exactly when more than
`f = num_faulty` distinct voters' committed votes agree on one change; any
returned change has more than `f` such voters; and the returned change is
the first one whose running count exceeds `f` when tallying the committed
entries in the map's voter-key iteration order (`winner_spec`). -/
theorem compute_winner_correct [LinearOrder α] (c : VoteCounter α)
    (hwf : WF c) :
    ((compute_winner c).isSome = true ↔
      ∃ ch, c.netinfo.numFaulty <
        ((c.committed.filter (fun kv => decide (kv.2.change = ch))).map
          Prod.fst).toFinset.card)
    ∧ (∀ ch, compute_winner c = some ch → c.netinfo.numFaulty <
        ((c.committed.filter (fun kv => decide (kv.2.change = ch))).map
          Prod.fst).toFinset.card)
    ∧ compute_winner c = winner_spec c.netinfo.numFaulty
        ((c.committed.map Prod.snd).map Vote.change) [] := by
  obtain ⟨hp, hc, hkey⟩ := hwf
  refine ⟨?_, ?_, ?_⟩
  · unfold compute_winner
    rw [compute_winner_go_isSome]
    constructor
    · rintro ⟨ch, hpos, hlt⟩
      refine ⟨ch, ?_⟩
      rw [committed_voter_card c hc ch]
      simpa using hlt
    · rintro ⟨ch, hcard⟩
      rw [committed_voter_card c hc ch] at hcard
      exact ⟨ch, by omega, by simpa using hcard⟩
  · intro ch h
    have := compute_winner_go_some_count c.netinfo.numFaulty
      (c.committed.map Prod.snd) (fun _ => 0) ch h
    rw [committed_voter_card c hc ch]
    simpa using this
  · unfold compute_winner
    exact compute_winner_go_eq_winner_spec _ _ [] _ (fun ch => by simp)

/-- Witness for C1: the concrete well-formed state `cC3` with one committed
vote. -/
theorem compute_winner_correct_witness :
    WF cC3
    ∧ (((compute_winner cC3).isSome = true ↔
        ∃ ch, cC3.netinfo.numFaulty <
          ((cC3.committed.filter (fun kv => decide (kv.2.change = ch))).map
            Prod.fst).toFinset.card)
      ∧ (∀ ch, compute_winner cC3 = some ch → cC3.netinfo.numFaulty <
          ((cC3.committed.filter (fun kv => decide (kv.2.change = ch))).map
            Prod.fst).toFinset.card)
      ∧ compute_winner cC3 = winner_spec cC3.netinfo.numFaulty
          ((cC3.committed.map Prod.snd).map Vote.change) []) := by
  have hwf : WF cC3 := by
    refine ⟨by simp [cC3], by simp [cC3], ?_⟩
    intro kv hkv
    simp [cC3] at hkv
  exact ⟨hwf, compute_winner_correct cC3 hwf⟩

theorem insertKV_comm {β : Type} [LinearOrder α] {k k' : α} (hne : k ≠ k')
    (v w : β) (l : List (α × β)) :
    insertKV k v (insertKV k' w l) = insertKV k' w (insertKV k v l) := by
  induction l with
  | nil =>
    rcases lt_or_gt_of_ne hne with h | h
    · simp [insertKV, h, lt_asymm h, hne, Ne.symm hne]
    · simp [insertKV, h, lt_asymm h, hne, Ne.symm hne]
  | cons hd tl ih =>
    obtain ⟨a, b⟩ := hd
    rcases lt_trichotomy k a with h1 | h1 | h1 <;>
      rcases lt_trichotomy k' a with h2 | h2 | h2
    · rcases lt_or_gt_of_ne hne with hk | hk
      · simp [insertKV, h1, h2, hk, lt_asymm hk, hne, Ne.symm hne]
      · simp [insertKV, h1, h2, hk, lt_asymm hk, hne, Ne.symm hne]
    · subst h2
      simp [insertKV, h1, lt_asymm h1, lt_irrefl, hne, Ne.symm hne]
    · simp [insertKV, h1, h2, lt_asymm h2, ne_of_gt h2,
        lt_asymm (h1.trans h2), hne, Ne.symm hne]
    · subst h1
      simp [insertKV, h2, lt_asymm h2, lt_irrefl, hne, Ne.symm hne]
    · exact absurd (h1.trans h2.symm) hne
    · subst h1
      simp [insertKV, h2, lt_asymm h2, lt_irrefl, hne, Ne.symm hne]
    · simp [insertKV, h1, h2, lt_asymm h1, ne_of_gt h1,
        lt_asymm (h2.trans h1), hne, Ne.symm hne]
    · subst h2
      simp [insertKV, h1, lt_asymm h1, lt_irrefl, hne, Ne.symm hne]
    · simp [insertKV, lt_asymm h1, lt_asymm h2, ne_of_gt h1,
        ne_of_gt h2, ih]

/-- The pending-map transformer applied by one `add_pending_vote` call. -/
def pendFn [LinearOrder α] (bc : Bincode α) (ni : NetworkInfo α) (era : Nat)
    (p : List (α × SignedVote α)) (sv : SignedVote α) :
    List (α × SignedVote α) :=
  if pend_stores bc ni era p sv then insertKV sv.voter sv p else p

/-- The committed-map transformer applied by one `add_committed_vote` call. -/
def commFn [LinearOrder α] (bc : Bincode α) (ni : NetworkInfo α) (era : Nat)
    (cm : List (α × Vote α)) (sv : SignedVote α) : List (α × Vote α) :=
  if comm_stores bc ni era cm sv then insertKV sv.voter sv.vote cm else cm

theorem apv_fst_fn [LinearOrder α] (bc : Bincode α) (c : VoteCounter α)
    (sender_id : α) (sv : SignedVote α) :
    (add_pending_vote bc c sender_id sv).1 =
      { c with pending := pendFn bc c.netinfo c.era c.pending sv } := by
  rw [apv_fst]
  unfold pendFn
  by_cases h : pend_stores bc c.netinfo c.era c.pending sv = true
  · rw [if_pos h, if_pos h]
  · rw [if_neg h, if_neg h]

theorem acv_fst_fn [LinearOrder α] (bc : Bincode α) (c : VoteCounter α)
    (proposer_id : α) (sv : SignedVote α) :
    (add_committed_vote bc c proposer_id sv).1 =
      { c with committed := commFn bc c.netinfo c.era c.committed sv } := by
  rw [acv_fst]
  unfold commFn
  by_cases h : comm_stores bc c.netinfo c.era c.committed sv = true
  · rw [if_pos h, if_pos h]
  · rw [if_neg h, if_neg h]

theorem pendFn_pos [LinearOrder α] {bc : Bincode α} {ni : NetworkInfo α}
    {era : Nat} {p : List (α × SignedVote α)} {sv : SignedVote α}
    (h : pend_stores bc ni era p sv = true) :
    pendFn bc ni era p sv = insertKV sv.voter sv p := by
  unfold pendFn
  rw [if_pos h]

theorem pendFn_neg [LinearOrder α] {bc : Bincode α} {ni : NetworkInfo α}
    {era : Nat} {p : List (α × SignedVote α)} {sv : SignedVote α}
    (h : ¬pend_stores bc ni era p sv = true) :
    pendFn bc ni era p sv = p := by
  unfold pendFn
  rw [if_neg h]

theorem commFn_pos [LinearOrder α] {bc : Bincode α} {ni : NetworkInfo α}
    {era : Nat} {cm : List (α × Vote α)} {sv : SignedVote α}
    (h : comm_stores bc ni era cm sv = true) :
    commFn bc ni era cm sv = insertKV sv.voter sv.vote cm := by
  unfold commFn
  rw [if_pos h]

theorem commFn_neg [LinearOrder α] {bc : Bincode α} {ni : NetworkInfo α}
    {era : Nat} {cm : List (α × Vote α)} {sv : SignedVote α}
    (h : ¬comm_stores bc ni era cm sv = true) :
    commFn bc ni era cm sv = cm := by
  unfold commFn
  rw [if_neg h]

theorem pend_stores_insert_ne [LinearOrder α] (bc : Bincode α)
    (ni : NetworkInfo α) (era : Nat) (p : List (α × SignedVote α))
    {svI svQ : SignedVote α} (hv : svQ.voter ≠ svI.voter) :
    pend_stores bc ni era (insertKV svI.voter svI p) svQ =
      pend_stores bc ni era p svQ := by
  unfold pend_stores
  rw [findKV_insertKV_ne svI p hv]

theorem comm_stores_insert_ne [LinearOrder α] (bc : Bincode α)
    (ni : NetworkInfo α) (era : Nat) (cm : List (α × Vote α))
    {svI svQ : SignedVote α} (hv : svQ.voter ≠ svI.voter) :
    comm_stores bc ni era (insertKV svI.voter svI.vote cm) svQ =
      comm_stores bc ni era cm svQ := by
  unfold comm_stores
  rw [findKV_insertKV_ne svI.vote cm hv]

theorem pend_stores_insert_self_lt [LinearOrder α] (bc : Bincode α)
    (ni : NetworkInfo α) (era : Nat) (p : List (α × SignedVote α))
    {svI svQ : SignedVote α} (hv : svQ.voter = svI.voter)
    (hnum : svI.vote.num < svQ.vote.num)
    (hI : pend_stores bc ni era p svI = true) :
    pend_stores bc ni era (insertKV svI.voter svI p) svQ =
      pend_stores bc ni era p svQ := by
  unfold pend_stores at hI ⊢
  rw [hv, findKV_insertKV_self]
  rw [Bool.and_eq_true, Bool.not_eq_true', Bool.or_eq_false_iff] at hI
  obtain ⟨⟨_, hobs⟩, _⟩ := hI
  rcases hf : findKV svI.voter p with _ | old
  · simp [mapOr, Nat.not_le.mpr hnum]
  · rw [hf] at hobs
    simp only [mapOr] at hobs ⊢
    have hlt : old.vote.num < svI.vote.num := by
      simpa [Nat.not_le] using hobs
    have h1 : ¬svQ.vote.num ≤ svI.vote.num := Nat.not_le.mpr hnum
    have h2 : ¬svQ.vote.num ≤ old.vote.num := by omega
    simp [h1, h2]

theorem comm_stores_insert_self_lt [LinearOrder α] (bc : Bincode α)
    (ni : NetworkInfo α) (era : Nat) (cm : List (α × Vote α))
    {svI svQ : SignedVote α} (hv : svQ.voter = svI.voter)
    (hnum : svI.vote.num < svQ.vote.num)
    (hI : comm_stores bc ni era cm svI = true) :
    comm_stores bc ni era (insertKV svI.voter svI.vote cm) svQ =
      comm_stores bc ni era cm svQ := by
  unfold comm_stores at hI ⊢
  rw [hv, findKV_insertKV_self]
  rw [Bool.and_eq_true, Bool.and_eq_true, Bool.not_eq_true'] at hI
  obtain ⟨⟨hobs, _⟩, _⟩ := hI
  rcases hf : findKV svI.voter cm with _ | old
  · simp [mapOr, Nat.not_le.mpr hnum]
  · rw [hf] at hobs
    simp only [mapOr] at hobs ⊢
    have hlt : old.num < svI.vote.num := by
      simpa [Nat.not_le] using hobs
    have h1 : ¬svQ.vote.num ≤ svI.vote.num := Nat.not_le.mpr hnum
    have h2 : ¬svQ.vote.num ≤ old.num := by omega
    simp [h1, h2]

theorem pend_stores_insert_self_ge [LinearOrder α] (bc : Bincode α)
    (ni : NetworkInfo α) (era : Nat) (p : List (α × SignedVote α))
    {svI svQ : SignedVote α} (hv : svQ.voter = svI.voter)
    (hnum : svQ.vote.num ≤ svI.vote.num) :
    pend_stores bc ni era (insertKV svI.voter svI p) svQ = false := by
  unfold pend_stores
  rw [hv, findKV_insertKV_self]
  simp [mapOr, hnum]

theorem comm_stores_insert_self_ge [LinearOrder α] (bc : Bincode α)
    (ni : NetworkInfo α) (era : Nat) (cm : List (α × Vote α))
    {svI svQ : SignedVote α} (hv : svQ.voter = svI.voter)
    (hnum : svQ.vote.num ≤ svI.vote.num) :
    comm_stores bc ni era (insertKV svI.voter svI.vote cm) svQ = false := by
  unfold comm_stores
  rw [hv, findKV_insertKV_self]
  simp [mapOr, hnum]

theorem pendFn_comm_ne [LinearOrder α] (bc : Bincode α) (ni : NetworkInfo α)
    (era : Nat) (p : List (α × SignedVote α)) (sv1 sv2 : SignedVote α)
    (hv : sv1.voter ≠ sv2.voter) :
    pendFn bc ni era (pendFn bc ni era p sv1) sv2 =
      pendFn bc ni era (pendFn bc ni era p sv2) sv1 := by
  by_cases h1 : pend_stores bc ni era p sv1 = true <;>
    by_cases h2 : pend_stores bc ni era p sv2 = true
  · have h2' : pend_stores bc ni era (insertKV sv1.voter sv1 p) sv2 = true := by
      rw [pend_stores_insert_ne bc ni era p (Ne.symm hv)]
      exact h2
    have h1' : pend_stores bc ni era (insertKV sv2.voter sv2 p) sv1 = true := by
      rw [pend_stores_insert_ne bc ni era p hv]
      exact h1
    rw [pendFn_pos h1, pendFn_pos h2', pendFn_pos h2, pendFn_pos h1']
    exact insertKV_comm (Ne.symm hv) sv2 sv1 p
  · have h2' : ¬pend_stores bc ni era (insertKV sv1.voter sv1 p) sv2
        = true := by
      rw [pend_stores_insert_ne bc ni era p (Ne.symm hv)]
      exact h2
    rw [pendFn_pos h1, pendFn_neg h2', pendFn_neg h2, pendFn_pos h1]
  · have h1' : ¬pend_stores bc ni era (insertKV sv2.voter sv2 p) sv1
        = true := by
      rw [pend_stores_insert_ne bc ni era p hv]
      exact h1
    rw [pendFn_neg h1, pendFn_pos h2, pendFn_neg h1']
  · rw [pendFn_neg h1, pendFn_neg h2, pendFn_neg h1]

theorem pendFn_comm_lt [LinearOrder α] (bc : Bincode α) (ni : NetworkInfo α)
    (era : Nat) (p : List (α × SignedVote α)) (sv1 sv2 : SignedVote α)
    (hv : sv1.voter = sv2.voter) (hnum : sv1.vote.num < sv2.vote.num) :
    pendFn bc ni era (pendFn bc ni era p sv1) sv2 =
      pendFn bc ni era (pendFn bc ni era p sv2) sv1 := by
  have h1'' : pend_stores bc ni era (insertKV sv2.voter sv2 p) sv1 = false :=
    pend_stores_insert_self_ge bc ni era p hv (le_of_lt hnum)
  by_cases h1 : pend_stores bc ni era p sv1 = true <;>
    by_cases h2 : pend_stores bc ni era p sv2 = true
  · have h2' : pend_stores bc ni era (insertKV sv1.voter sv1 p) sv2 = true := by
      rw [pend_stores_insert_self_lt bc ni era p hv.symm hnum h1]
      exact h2
    rw [pendFn_pos h1, pendFn_pos h2', pendFn_pos h2,
      pendFn_neg (by simp [h1'']), hv, insertKV_insertKV_self]
  · have h2' : ¬pend_stores bc ni era (insertKV sv1.voter sv1 p) sv2
        = true := by
      rw [pend_stores_insert_self_lt bc ni era p hv.symm hnum h1]
      exact h2
    rw [pendFn_pos h1, pendFn_neg h2', pendFn_neg h2, pendFn_pos h1]
  · rw [pendFn_neg h1, pendFn_pos h2, pendFn_neg (by simp [h1''])]
  · rw [pendFn_neg h1, pendFn_neg h2, pendFn_neg h1]

theorem pendFn_comm [LinearOrder α] (bc : Bincode α) (ni : NetworkInfo α)
    (era : Nat) (p : List (α × SignedVote α)) (sv1 sv2 : SignedVote α)
    (hcompat : sv1.voter = sv2.voter → sv1.vote.num = sv2.vote.num →
      sv1 = sv2) :
    pendFn bc ni era (pendFn bc ni era p sv1) sv2 =
      pendFn bc ni era (pendFn bc ni era p sv2) sv1 := by
  by_cases hv : sv1.voter = sv2.voter
  · rcases Nat.lt_trichotomy sv1.vote.num sv2.vote.num with hn | hn | hn
    · exact pendFn_comm_lt bc ni era p sv1 sv2 hv hn
    · rw [hcompat hv hn]
    · exact (pendFn_comm_lt bc ni era p sv2 sv1 hv.symm hn).symm
  · exact pendFn_comm_ne bc ni era p sv1 sv2 hv

theorem commFn_comm_ne [LinearOrder α] (bc : Bincode α) (ni : NetworkInfo α)
    (era : Nat) (cm : List (α × Vote α)) (sv1 sv2 : SignedVote α)
    (hv : sv1.voter ≠ sv2.voter) :
    commFn bc ni era (commFn bc ni era cm sv1) sv2 =
      commFn bc ni era (commFn bc ni era cm sv2) sv1 := by
  by_cases h1 : comm_stores bc ni era cm sv1 = true <;>
    by_cases h2 : comm_stores bc ni era cm sv2 = true
  · have h2' : comm_stores bc ni era (insertKV sv1.voter sv1.vote cm) sv2
        = true := by
      rw [comm_stores_insert_ne bc ni era cm (Ne.symm hv)]
      exact h2
    have h1' : comm_stores bc ni era (insertKV sv2.voter sv2.vote cm) sv1
        = true := by
      rw [comm_stores_insert_ne bc ni era cm hv]
      exact h1
    rw [commFn_pos h1, commFn_pos h2', commFn_pos h2, commFn_pos h1']
    exact insertKV_comm (Ne.symm hv) sv2.vote sv1.vote cm
  · have h2' : ¬comm_stores bc ni era (insertKV sv1.voter sv1.vote cm) sv2
        = true := by
      rw [comm_stores_insert_ne bc ni era cm (Ne.symm hv)]
      exact h2
    rw [commFn_pos h1, commFn_neg h2', commFn_neg h2, commFn_pos h1]
  · have h1' : ¬comm_stores bc ni era (insertKV sv2.voter sv2.vote cm) sv1
        = true := by
      rw [comm_stores_insert_ne bc ni era cm hv]
      exact h1
    rw [commFn_neg h1, commFn_pos h2, commFn_neg h1']
  · rw [commFn_neg h1, commFn_neg h2, commFn_neg h1]

theorem commFn_comm_lt [LinearOrder α] (bc : Bincode α) (ni : NetworkInfo α)
    (era : Nat) (cm : List (α × Vote α)) (sv1 sv2 : SignedVote α)
    (hv : sv1.voter = sv2.voter) (hnum : sv1.vote.num < sv2.vote.num) :
    commFn bc ni era (commFn bc ni era cm sv1) sv2 =
      commFn bc ni era (commFn bc ni era cm sv2) sv1 := by
  have h1'' : comm_stores bc ni era (insertKV sv2.voter sv2.vote cm) sv1
      = false :=
    comm_stores_insert_self_ge bc ni era cm hv (le_of_lt hnum)
  by_cases h1 : comm_stores bc ni era cm sv1 = true <;>
    by_cases h2 : comm_stores bc ni era cm sv2 = true
  · have h2' : comm_stores bc ni era (insertKV sv1.voter sv1.vote cm) sv2
        = true := by
      rw [comm_stores_insert_self_lt bc ni era cm hv.symm hnum h1]
      exact h2
    rw [commFn_pos h1, commFn_pos h2', commFn_pos h2,
      commFn_neg (by simp [h1'']), hv, insertKV_insertKV_self]
  · have h2' : ¬comm_stores bc ni era (insertKV sv1.voter sv1.vote cm) sv2
        = true := by
      rw [comm_stores_insert_self_lt bc ni era cm hv.symm hnum h1]
      exact h2
    rw [commFn_pos h1, commFn_neg h2', commFn_neg h2, commFn_pos h1]
  · rw [commFn_neg h1, commFn_pos h2, commFn_neg (by simp [h1''])]
  · rw [commFn_neg h1, commFn_neg h2, commFn_neg h1]

theorem commFn_comm_eq [LinearOrder α] (bc : Bincode α) (ni : NetworkInfo α)
    (era : Nat) (cm : List (α × Vote α)) (sv1 sv2 : SignedVote α)
    (hv : sv1.voter = sv2.voter) (hnum : sv1.vote.num = sv2.vote.num)
    (hvote : sv1.vote = sv2.vote) :
    commFn bc ni era (commFn bc ni era cm sv1) sv2 =
      commFn bc ni era (commFn bc ni era cm sv2) sv1 := by
  have hins : insertKV sv1.voter sv1.vote cm =
      insertKV sv2.voter sv2.vote cm := by rw [hv, hvote]
  have h2' : comm_stores bc ni era (insertKV sv1.voter sv1.vote cm) sv2
      = false :=
    comm_stores_insert_self_ge bc ni era cm hv.symm (le_of_eq hnum.symm)
  have h1' : comm_stores bc ni era (insertKV sv2.voter sv2.vote cm) sv1
      = false :=
    comm_stores_insert_self_ge bc ni era cm hv (le_of_eq hnum)
  by_cases h1 : comm_stores bc ni era cm sv1 = true <;>
    by_cases h2 : comm_stores bc ni era cm sv2 = true
  · rw [commFn_pos h1, commFn_neg (by simp [h2']), commFn_pos h2,
      commFn_neg (by simp [h1']), hins]
  · rw [commFn_pos h1, commFn_neg (by simp [h2']), commFn_neg h2,
      commFn_pos h1]
  · rw [commFn_neg h1, commFn_pos h2, commFn_neg (by simp [h1'])]
  · rw [commFn_neg h1, commFn_neg h2, commFn_neg h1]

theorem commFn_comm [LinearOrder α] (bc : Bincode α) (ni : NetworkInfo α)
    (era : Nat) (cm : List (α × Vote α)) (sv1 sv2 : SignedVote α)
    (hcompat : sv1.voter = sv2.voter → sv1.vote.num = sv2.vote.num →
      sv1.vote = sv2.vote) :
    commFn bc ni era (commFn bc ni era cm sv1) sv2 =
      commFn bc ni era (commFn bc ni era cm sv2) sv1 := by
  by_cases hv : sv1.voter = sv2.voter
  · rcases Nat.lt_trichotomy sv1.vote.num sv2.vote.num with hn | hn | hn
    · exact commFn_comm_lt bc ni era cm sv1 sv2 hv hn
    · exact commFn_comm_eq bc ni era cm sv1 sv2 hv hn (hcompat hv hn)
    · exact (commFn_comm_lt bc ni era cm sv2 sv1 hv.symm hn).symm
  · exact commFn_comm_ne bc ni era cm sv1 sv2 hv

/-- One ingestion call: a gossiped pending vote attributed to a sender, or a
batch-committed vote attributed to a proposer. -/
inductive Op (α : Type) where
  | pend : α → SignedVote α → Op α
  | comm : α → SignedVote α → Op α
deriving DecidableEq

/-- Dispatch one ingestion call on a counter state. -/
def applyOp [LinearOrder α] (bc : Bincode α) (c : VoteCounter α) :
    Op α → VoteCounter α × Except ErrorKind (FaultLog α)
  | .pend sender_id sv => add_pending_vote bc c sender_id sv
  | .comm proposer_id sv => add_committed_vote bc c proposer_id sv

/-- The counter state after delivering a list of ingestion calls in order. -/
def runOps [LinearOrder α] (bc : Bincode α) (c : VoteCounter α) :
    List (Op α) → VoteCounter α
  | [] => c
  | op :: rest => runOps bc (applyOp bc c op).1 rest

/-- Two ingestion calls do not equivocate: if both are pending votes by one
voter with one number they are the same signed vote, and if both are
committed votes by one voter with one number they carry the same unsigned
vote. -/
def compatOp : Op α → Op α → Prop
  | .pend _ sv1, .pend _ sv2 =>
      sv1.voter = sv2.voter → sv1.vote.num = sv2.vote.num → sv1 = sv2
  | .comm _ sv1, .comm _ sv2 =>
      sv1.voter = sv2.voter → sv1.vote.num = sv2.vote.num →
        sv1.vote = sv2.vote
  | _, _ => True

theorem compatOp_symm {a b : Op α} (h : compatOp a b) : compatOp b a := by
  cases a <;> cases b
  · exact fun h1 h2 => (h h1.symm h2.symm).symm
  · trivial
  · trivial
  · exact fun h1 h2 => (h h1.symm h2.symm).symm

theorem applyOp_swap [LinearOrder α] (bc : Bincode α) {a b : Op α}
    (hab : compatOp a b) (c : VoteCounter α) :
    (applyOp bc (applyOp bc c a).1 b).1 = (applyOp bc (applyOp bc c b).1 a).1
    := by
  cases a with
  | pend s1 sv1 =>
    cases b with
    | pend s2 sv2 =>
      dsimp only [applyOp]
      simp only [apv_fst_fn]
      congr 1
      exact pendFn_comm bc c.netinfo c.era c.pending sv1 sv2 hab
    | comm p2 sv2 =>
      dsimp only [applyOp]
      simp only [apv_fst_fn, acv_fst_fn]
  | comm p1 sv1 =>
    cases b with
    | pend s2 sv2 =>
      dsimp only [applyOp]
      simp only [apv_fst_fn, acv_fst_fn]
    | comm p2 sv2 =>
      dsimp only [applyOp]
      simp only [acv_fst_fn]
      congr 1
      exact commFn_comm bc c.netinfo c.era c.committed sv1 sv2 hab

theorem runOps_fixed_perm [LinearOrder α] (bc : Bincode α)
    {ops ops' : List (Op α)} (hperm : ops.Perm ops') :
    ops.Pairwise compatOp → ∀ c, runOps bc c ops = runOps bc c ops' := by
  induction hperm with
  | nil => exact fun _ _ => rfl
  | cons x hperm ih =>
    intro hpair c
    simp only [runOps]
    exact ih (List.pairwise_cons.mp hpair).2 _
  | swap x y l =>
    intro hpair c
    simp only [runOps]
    have hxy : compatOp y x :=
      (List.pairwise_cons.mp hpair).1 x (by simp)
    rw [applyOp_swap bc hxy c]
  | trans h1 h2 ih1 ih2 =>
    intro hpair c
    rw [ih1 hpair c,
      ih2 ((h1.pairwise_iff (fun h => compatOp_symm h)).mp hpair) c]

theorem apv_of_stores [LinearOrder α] (bc : Bincode α) (c : VoteCounter α)
    (sender_id : α) (sv : SignedVote α)
    (h : pend_stores bc c.netinfo c.era c.pending sv = true) :
    add_pending_vote bc c sender_id sv =
      ({ c with pending := insertKV sv.voter sv c.pending },
       .ok FaultLog.new) := by
  unfold add_pending_vote
  unfold pend_stores at h
  rw [Bool.and_eq_true, Bool.not_eq_true'] at h
  obtain ⟨hcond, hval⟩ := h
  rw [decide_eq_true_eq] at hval
  rw [hcond]
  simp [hval]

theorem acv_of_stores [LinearOrder α] (bc : Bincode α) (c : VoteCounter α)
    (proposer_id : α) (sv : SignedVote α)
    (h : comm_stores bc c.netinfo c.era c.committed sv = true) :
    add_committed_vote bc c proposer_id sv =
      ({ c with committed := insertKV sv.voter sv.vote c.committed },
       .ok FaultLog.new) := by
  unfold add_committed_vote
  unfold comm_stores at h
  rw [Bool.and_eq_true, Bool.and_eq_true, Bool.not_eq_true',
    Bool.not_eq_true'] at h
  obtain ⟨⟨hobs, hera⟩, hval⟩ := h
  rw [decide_eq_true_eq] at hval
  rw [hobs, hera]
  simp [hval]

theorem apv_idem [LinearOrder α] (bc : Bincode α) (c : VoteCounter α)
    (sender_id : α) (sv : SignedVote α) :
    add_pending_vote bc (add_pending_vote bc c sender_id sv).1 sender_id sv =
      add_pending_vote bc c sender_id sv := by
  by_cases h : pend_stores bc c.netinfo c.era c.pending sv = true
  · rw [apv_of_stores bc c sender_id sv h]
    dsimp only
    have hobs : mapOr
        (findKV sv.voter (insertKV sv.voter sv c.pending)) false
        (fun o => decide (sv.vote.num ≤ o.vote.num)) = true := by
      rw [findKV_insertKV_self]
      simp [mapOr]
    unfold add_pending_vote
    rw [hobs]
    simp
  · have h1 : (add_pending_vote bc c sender_id sv).1 = c := by
      rw [apv_fst, if_neg h]
    rw [h1]

theorem acv_idem [LinearOrder α] (bc : Bincode α) (c : VoteCounter α)
    (proposer_id : α) (sv : SignedVote α) :
    add_committed_vote bc (add_committed_vote bc c proposer_id sv).1
        proposer_id sv =
      add_committed_vote bc c proposer_id sv := by
  by_cases h : comm_stores bc c.netinfo c.era c.committed sv = true
  · rw [acv_of_stores bc c proposer_id sv h]
    dsimp only
    have hobs : mapOr
        (findKV sv.voter (insertKV sv.voter sv.vote c.committed)) false
        (fun o => decide (sv.vote.num ≤ o.num)) = true := by
      rw [findKV_insertKV_self]
      simp [mapOr]
    unfold add_committed_vote
    rw [hobs]
    simp
  · have h1 : (add_committed_vote bc c proposer_id sv).1 = c := by
      rw [acv_fst, if_neg h]
    rw [h1]

theorem applyOp_idem [LinearOrder α] (bc : Bincode α) (c₀ : VoteCounter α)
    (op : Op α) :
    applyOp bc (applyOp bc c₀ op).1 op = applyOp bc c₀ op := by
  cases op with
  | pend s sv => exact apv_idem bc c₀ s sv
  | comm p sv => exact acv_idem bc c₀ p sv

/-- Vote by voter 0, number 0, era 0, for `Remove 1`. -/
def svE1 : SignedVote Nat :=
  { vote := { change := .Remove 1, era := 0, num := 0 }, voter := 0, sig := 0 }

/-- Equivocating vote by voter 0 with the same number 0 but a different
change, `Remove 2`. -/
def svE2 : SignedVote Nat :=
  { vote := { change := .Remove 2, era := 0, num := 0 }, voter := 0, sig := 0 }

/-- Counterexample to claim C7 as stated: with an equivocating voter (two
distinct valid votes sharing voter 0 and number 0), the two delivery orders
of the same two `add_pending_vote` calls leave different pending maps; and
repeating the same call with an invalid signature emits the same fault entry
again rather than no fault. -/
theorem ops_order_counterexample :
    (runOps bcOk cW [Op.pend 5 svE1, Op.pend 5 svE2]).pending ≠
      (runOps bcOk cW [Op.pend 5 svE2, Op.pend 5 svE1]).pending
    ∧ (add_pending_vote bcOk (VoteCounter.new niFalse 0) 1 svE1).1 =
        VoteCounter.new niFalse 0
    ∧ (add_pending_vote bcOk
        (add_pending_vote bcOk (VoteCounter.new niFalse 0) 1 svE1).1
        1 svE1).2 =
        .ok (FaultLog.init 1 FaultKind.InvalidVoteSignature) :=
  ⟨by decide, rfl, rfl⟩

/-- Claim C7 (amended): for a fixed multiset of `add_pending_vote` and
`add_committed_vote` calls in which no voter equivocates at a single vote
number (pairwise `compatOp`), the final counter state is the same for every
delivery order; and applying the same call twice in a row is idempotent: the
second application leaves the state unchanged and returns the same result as
the first (in particular, an empty fault log whenever the first call stored
the vote or skipped it as obsolete; only a vote faulted by the first call is
faulted again). -/
theorem ops_order_independent_and_idempotent [LinearOrder α]
    (bc : Bincode α) (c : VoteCounter α) (ops ops' : List (Op α))
    (hperm : ops.Perm ops') (hpair : ops.Pairwise compatOp) :
    runOps bc c ops = runOps bc c ops'
    ∧ ∀ (c₀ : VoteCounter α) (op : Op α),
        applyOp bc (applyOp bc c₀ op).1 op = applyOp bc c₀ op :=
  ⟨runOps_fixed_perm bc hperm hpair c,
   fun c₀ op => applyOp_idem bc c₀ op⟩

/-- Witness for C7 (amended): swapping one pending and one committed call on
the concrete counter `cW`. -/
theorem ops_order_independent_and_idempotent_witness :
    ([Op.pend 5 svE1, Op.comm 6 sv1] : List (Op Nat)).Perm
        [Op.comm 6 sv1, Op.pend 5 svE1]
    ∧ ([Op.pend 5 svE1, Op.comm 6 sv1] : List (Op Nat)).Pairwise compatOp
    ∧ runOps bcOk cW [Op.pend 5 svE1, Op.comm 6 sv1] =
        runOps bcOk cW [Op.comm 6 sv1, Op.pend 5 svE1]
    ∧ ∀ (c₀ : VoteCounter Nat) (op : Op Nat),
        applyOp bcOk (applyOp bcOk c₀ op).1 op = applyOp bcOk c₀ op := by
  have hperm : ([Op.pend 5 svE1, Op.comm 6 sv1] : List (Op Nat)).Perm
      [Op.comm 6 sv1, Op.pend 5 svE1] :=
    List.Perm.swap (Op.comm 6 sv1) (Op.pend 5 svE1) []
  have hpair : ([Op.pend 5 svE1, Op.comm 6 sv1] : List (Op Nat)).Pairwise
      compatOp := by
    refine List.pairwise_cons.mpr ⟨?_, List.pairwise_singleton _ _⟩
    intro b hb
    simp only [List.mem_singleton] at hb
    subst hb
    trivial
  have hmain := ops_order_independent_and_idempotent bcOk cW
    [Op.pend 5 svE1, Op.comm 6 sv1] [Op.comm 6 sv1, Op.pend 5 svE1]
    hperm hpair
  exact ⟨hperm, hpair, hmain.1, hmain.2⟩

end HbbftVotes
